import Mathlib

/-!
Verification of the melblkidx block indexer (shallow embedding).

The embedding models, from the source:
  * the coin-row schema and the compositional `CoinQuery` builder
    (src/coinquery.rs), including the exact SQL text each filter pushes and
    the fact that `iter()` concatenates them after `select * from coins where `;
  * the balance tracker (src/balance.rs): `balance_diff`, `balance_at`, its
    `BTreeMap` cache with the `(u64::MAX, CoinValue(0))` sentinel used via
    `unwrap_or` for an absent neighbour;
  * the per-transaction coin-mutation derivation of `indexer_loop_once`
    (src/lib.rs), including the melswap transmutation rules and the
    `tx.outputs.len() as u8 + 1` loop bound;
  * the commit-time table operations (coin insert with NULL spend fields,
    spend-triple update).

Machine integers are modelled as `Nat`/`Int` with explicit reductions
modulo 2^64 and 2^128 exactly where the Rust release-mode arithmetic wraps
(`as u8` / `as u128` casts, `u64`/`u128`/`i128` addition and subtraction).
-/

namespace Melblkidx

/-- 2^64, the modulus of `u64` arithmetic. -/
def u64Mod : Nat := 18446744073709551616

/-- `u64::MAX` = 2^64 - 1, used by `balance_at` as the sentinel height for an
absent cache neighbour (`unwrap_or((u64::MAX, CoinValue(0)))`). -/
def u64Max : Nat := 18446744073709551615

/-- 2^63; heights below this bound keep every `u64` distance computation far
away from the sentinel height. -/
def halfU64 : Nat := 9223372036854775808

/-- 2^128, the modulus of `u128` arithmetic. -/
def u128Mod : Nat := 340282366920938463463374607431768211456

/-- 2^128 as an integer. -/
def u128ModZ : Int := 340282366920938463463374607431768211456

/-- 2^127 as an integer, half the `i128` range. -/
def i128Half : Int := 170141183460469231731687303715884105728

/-- Wrap an unbounded integer into the `i128` range `[-2^127, 2^127)`,
the release-mode semantics of overflowing `i128` arithmetic. -/
def i128wrap (z : Int) : Int := (z + i128Half) % u128ModZ - i128Half

/-- Wrapping `u128` addition (release-mode `CoinValue + CoinValue`). -/
def add128 (a b : Nat) : Nat := (a + b) % u128Mod

/-- Wrapping `u128` subtraction (release-mode `CoinValue - CoinValue`). -/
def sub128 (a b : Nat) : Nat := (a + (u128Mod - b % u128Mod)) % u128Mod

/-- The `as u128` cast of an `i128` value: reduce modulo 2^128 into `[0, 2^128)`. -/
def u128OfI128 (z : Int) : Nat := (z % u128ModZ).toNat

/-- The `as i128` cast of a `u128` value (wraps values at or above 2^127
to negative integers). -/
def i128OfU128 (v : Nat) : Int := i128wrap (v : Int)

/-- One row of the `coins` table.  Hash-, address- and byte-string-valued
columns are abstracted to `Nat` codes; the three spend columns are nullable
exactly as in the schema (`spend_txhash, spend_index, spend_height`). -/
structure CoinRow where
  create_txhash : Nat
  create_index : Nat
  create_height : Nat
  value : Nat
  denom : Nat
  covhash : Nat
  additional_data : Nat
  spend_txhash : Option Nat
  spend_index : Option Nat
  spend_height : Option Nat
deriving DecidableEq

/-- The columns a `CoinQuery` filter can mention. -/
inductive Col where
  | create_txhash
  | create_index
  | create_height
  | spend_txhash
  | spend_index
  | spend_height
  | value
  | denom
  | covhash
  | additional_data
deriving DecidableEq

/-- Read a column of a row; the three spend columns may be SQL NULL. -/
def Col.read : Col → CoinRow → Option Nat
  | .create_txhash, r => some r.create_txhash
  | .create_index, r => some r.create_index
  | .create_height, r => some r.create_height
  | .spend_txhash, r => r.spend_txhash
  | .spend_index, r => r.spend_index
  | .spend_height, r => r.spend_height
  | .value, r => some r.value
  | .denom, r => some r.denom
  | .covhash, r => some r.covhash
  | .additional_data, r => some r.additional_data

/-- The SQL name of a column (as it appears in the pushed filter strings). -/
def Col.sqlName : Col → String
  | .create_txhash => "create_txhash"
  | .create_index => "create_index"
  | .create_height => "create_height"
  | .spend_txhash => "spend_txhash"
  | .spend_index => "spend_index"
  | .spend_height => "spend_height"
  | .value => "value"
  | .denom => "denom"
  | .covhash => "covhash"
  | .additional_data => "additional_data"

/-- One predicate pushed by a `CoinQuery` combinator: `add_eq_filter` pushes
`field == ?`, `add_range_filter` pushes `>=` / `>` / `<=` / `<` fragments, and
`unspent` pushes the literal `spend_txhash is null`. -/
inductive Filter where
  | geF (c : Col) (v : Nat)
  | gtF (c : Col) (v : Nat)
  | leF (c : Col) (v : Nat)
  | ltF (c : Col) (v : Nat)
  | eqF (c : Col) (v : Nat)
  | isNullSpendTxhash
deriving DecidableEq

/-- The SQL fragment a filter contributes (parameters shown as `?`). -/
def Filter.toSql : Filter → String
  | .geF c _ => c.sqlName ++ " >= ?"
  | .gtF c _ => c.sqlName ++ " > ?"
  | .leF c _ => c.sqlName ++ " <= ?"
  | .ltF c _ => c.sqlName ++ " < ?"
  | .eqF c _ => c.sqlName ++ " == ?"
  | .isNullSpendTxhash => "spend_txhash is null"

/-- SQL evaluation of one filter on one row.  A comparison with a NULL column
is not satisfied (SQL three-valued logic makes the WHERE clause reject the
row). -/
def Filter.matchesRow : Filter → CoinRow → Bool
  | .geF c v, r => match c.read r with | some x => decide (v ≤ x) | none => false
  | .gtF c v, r => match c.read r with | some x => decide (v < x) | none => false
  | .leF c v, r => match c.read r with | some x => decide (x ≤ v) | none => false
  | .ltF c v, r => match c.read r with | some x => decide (x < v) | none => false
  | .eqF c v, r => match c.read r with | some x => decide (x = v) | none => false
  | .isNullSpendTxhash, r => r.spend_txhash.isNone

/-- A half-built query on the coins table: the accumulated conjunctive
predicate list (the pool handle of the source is not part of the functional
state). -/
structure CoinQuery where
  filters : List Filter
deriving DecidableEq

/-- `CoinQuery::new`: the fresh, unconstrained query returned by
`Indexer::query_coins`. -/
def CoinQuery.new : CoinQuery := ⟨[]⟩

/-- A `RangeBounds` bound as received by `add_range_filter`. -/
inductive Bnd where
  | unbounded
  | included (v : Nat)
  | excluded (v : Nat)
deriving DecidableEq

/-- `add_range_filter`: push the start bound's fragment, then the end
bound's. -/
def CoinQuery.add_range_filter (q : CoinQuery) (c : Col) (lo hi : Bnd) : CoinQuery :=
  ⟨q.filters
    ++ (match lo with
        | .included v => [Filter.geF c v]
        | .excluded v => [Filter.gtF c v]
        | .unbounded => [])
    ++ (match hi with
        | .included v => [Filter.leF c v]
        | .excluded v => [Filter.ltF c v]
        | .unbounded => [])⟩

/-- `add_eq_filter`. -/
def CoinQuery.add_eq_filter (q : CoinQuery) (c : Col) (v : Nat) : CoinQuery :=
  ⟨q.filters ++ [Filter.eqF c v]⟩

/-- `CoinQuery::create_txhash`. -/
def CoinQuery.create_txhash (q : CoinQuery) (v : Nat) : CoinQuery :=
  q.add_eq_filter .create_txhash v

/-- `CoinQuery::create_index`. -/
def CoinQuery.create_index (q : CoinQuery) (v : Nat) : CoinQuery :=
  q.add_eq_filter .create_index v

/-- `CoinQuery::create_height_range`. -/
def CoinQuery.create_height_range (q : CoinQuery) (lo hi : Bnd) : CoinQuery :=
  q.add_range_filter .create_height lo hi

/-- `CoinQuery::unspent`: pushes `spend_txhash is null`. -/
def CoinQuery.unspent (q : CoinQuery) : CoinQuery :=
  ⟨q.filters ++ [Filter.isNullSpendTxhash]⟩

/-- `CoinQuery::spend_txhash`. -/
def CoinQuery.spend_txhash (q : CoinQuery) (v : Nat) : CoinQuery :=
  q.add_eq_filter .spend_txhash v

/-- `CoinQuery::spend_index`. -/
def CoinQuery.spend_index (q : CoinQuery) (v : Nat) : CoinQuery :=
  q.add_eq_filter .spend_index v

/-- `CoinQuery::spend_height_range`. -/
def CoinQuery.spend_height_range (q : CoinQuery) (lo hi : Bnd) : CoinQuery :=
  q.add_range_filter .spend_height lo hi

/-- `CoinQuery::value_range` (16-byte big-endian blob order coincides with
numeric order). -/
def CoinQuery.value_range (q : CoinQuery) (lo hi : Bnd) : CoinQuery :=
  q.add_range_filter .value lo hi

/-- `CoinQuery::denom`. -/
def CoinQuery.denom (q : CoinQuery) (v : Nat) : CoinQuery :=
  q.add_eq_filter .denom v

/-- `CoinQuery::covhash`. -/
def CoinQuery.covhash (q : CoinQuery) (v : Nat) : CoinQuery :=
  q.add_eq_filter .covhash v

/-- `CoinQuery::additional_data`. -/
def CoinQuery.additional_data (q : CoinQuery) (v : Nat) : CoinQuery :=
  q.add_eq_filter .additional_data v

/-- The conjunction of all accumulated predicates on one row. -/
def rowMatches (q : CoinQuery) (r : CoinRow) : Bool :=
  q.filters.all (fun f => f.matchesRow r)

/-- The SQL text `iter()` prepares:
`select * from coins where <fragments joined by " and ">`. -/
def iterSqlText (q : CoinQuery) : String :=
  "select * from coins where " ++ String.intercalate " and " (q.filters.map Filter.toSql)

/-- `CoinQuery::iter` run against a table state.  With an empty filter list the
prepared text is `select * from coins where ` — no expression follows the
WHERE keyword, SQLite rejects the statement, and the source's
`conn.prepare_cached(&query).unwrap()` panics; that failure is modelled as
`none`.  With at least one filter the statement is well-formed and yields
exactly the matching rows — provided every parameter binds: binding a `u64`
height parameter above `i64::MAX` makes `stmt.query_map(..).unwrap()` panic
(see `Filter.bindFails`).  The row-returning branch therefore models only
executions whose binds succeed; theorems about completing executions restrict
heights (and assume `CoinQuery.bindsOk` of the base query) so that every
pushed parameter is representable. -/
def CoinQuery.iter (q : CoinQuery) (table : List CoinRow) : Option (List CoinRow) :=
  if q.filters.isEmpty then none else some (table.filter (fun r => rowMatches q r))

/-- The rows an internally-issued query sees.  Every query the balance tracker
issues carries at least one pushed filter, so its `iter` never hits the
empty-filter failure; the default is never taken on those paths. -/
def queryRows (q : CoinQuery) (table : List CoinRow) : List CoinRow :=
  (q.iter table).getD []

/-- `Indexer::max_height`: `select coalesce(max(height), 0) from headvars`
over the list of indexed heights. -/
def max_height (heights : List Nat) : Nat := heights.foldl max 0

/-- The balance cache: the contents of the tracker's `BTreeMap<u64, CoinValue>`
as an association list (keys unique by construction of `cacheInsert`). -/
abbrev Cache := List (Nat × Nat)

/-- `BTreeMap::get`. -/
def cacheGet : Cache → Nat → Option Nat
  | [], _ => none
  | kv :: rest, h => if kv.1 = h then some kv.2 else cacheGet rest h

/-- `BTreeMap::insert` (replaces any entry at the key). -/
def cacheInsert (c : Cache) (h v : Nat) : Cache :=
  (h, v) :: c.filter (fun kv => !decide (kv.1 = h))

/-- `self.cache.lock().range(bound..).next()`: the entry with the smallest key
`≥ bound`, if any. -/
def minAbove : Cache → Nat → Option (Nat × Nat)
  | [], _ => none
  | kv :: rest, b =>
    match minAbove rest b with
    | none => if b ≤ kv.1 then some kv else none
    | some best => if b ≤ kv.1 ∧ kv.1 < best.1 then some kv else some best

/-- `self.cache.lock().range(..bound).next_back()`: the entry with the largest
key `< bound`, if any. -/
def maxBelow : Cache → Nat → Option (Nat × Nat)
  | [], _ => none
  | kv :: rest, b =>
    match maxBelow rest b with
    | none => if kv.1 < b then some kv else none
    | some best => if kv.1 < b ∧ best.1 < kv.1 then some kv else some best

/-- `u64::abs_diff`. -/
def absDiff (a b : Nat) : Nat := if a ≤ b then b - a else a - b

/-- The (sum of matching `create_height` values)-side query of
`balance_diff(start, end)`: `create_height_range(start + 1..=end)`, with the
`u64` increment of `start` wrapping at `u64::MAX`. -/
def diffCreateQuery (q : CoinQuery) (start endH : Nat) : CoinQuery :=
  q.create_height_range (.included ((start + 1) % u64Mod)) (.included endH)

/-- The spend-side query of `balance_diff(start, end)`:
`spend_height_range(start + 1..=end)`. -/
def diffSpendQuery (q : CoinQuery) (start endH : Nat) : CoinQuery :=
  q.spend_height_range (.included ((start + 1) % u64Mod)) (.included endH)

/-- The per-step-wrapping `i128` fold
`iter().fold(0i128, |a, b| a + b.coin_data.value.0 as i128)`. -/
def sumI128 (rows : List CoinRow) : Int :=
  rows.foldl (fun a r => i128wrap (a + i128OfU128 r.value)) 0

/-- The per-step-wrapping `u128` fold
`iter().map(|s| s.coin_data.value).fold(CoinValue(0), |a, b| a + b)`. -/
def sum128 (rows : List CoinRow) : Nat :=
  rows.foldl (fun a r => add128 a r.value) 0

/-- `BalanceTracker::balance_diff`: coins created in `(start, end]` minus coins
spent in `(start, end]`, as wrapping `i128` arithmetic. -/
def balance_diff (q : CoinQuery) (table : List CoinRow) (start endH : Nat) : Int :=
  i128wrap (sumI128 (queryRows (diffCreateQuery q start endH) table)
    - sumI128 (queryRows (diffSpendQuery q start endH) table))

/-- The unspent-side query of the from-scratch computation:
`create_height_range(..=height).unspent()`. -/
def scratchUnspentQuery (q : CoinQuery) (h : Nat) : CoinQuery :=
  (q.create_height_range .unbounded (.included h)).unspent

/-- The spent-later-side query of the from-scratch computation:
`create_height_range(..=height).spend_height_range(height + 1..)`, with the
`u64` increment of `height` wrapping at `u64::MAX`. -/
def scratchSpentLaterQuery (q : CoinQuery) (h : Nat) : CoinQuery :=
  (q.create_height_range .unbounded (.included h)).spend_height_range
    (.included ((h + 1) % u64Mod)) .unbounded

/-- The from-scratch balance `balance_at` computes when the cache is empty. -/
def scratchBalance (q : CoinQuery) (table : List CoinRow) (h : Nat) : Nat :=
  add128 (sum128 (queryRows (scratchUnspentQuery q h) table))
    (sum128 (queryRows (scratchSpentLaterQuery q h) table))

/-- `BalanceTracker::balance_at` acting on an explicit table and cache state;
returns the `Option` result together with the cache the call leaves behind.
Mirrors the source: direct cache hit; from-scratch on an empty cache; else the
closest of the two `range` neighbours with `unwrap_or((u64::MAX, CoinValue(0)))`
for an absent one, subtracting `balance_diff` from the next neighbour or adding
it to the previous one (ties go to the previous), and memoizing unless the
value equals either neighbour slot's balance. -/
def balance_at (q : CoinQuery) (table : List CoinRow) (c : Cache) (h : Nat) :
    Option Nat × Cache :=
  match cacheGet c h with
  | some v => (some v, c)
  | none =>
    if c.isEmpty then
      (some (scratchBalance q table h), cacheInsert c h (scratchBalance q table h))
    else
      let nxt := (minAbove c ((h + 1) % u64Mod)).getD (u64Max, 0)
      let prv := (maxBelow c h).getD (u64Max, 0)
      let bal :=
        if absDiff h nxt.1 < absDiff h prv.1 then
          sub128 nxt.2 (u128OfI128 (balance_diff q table h nxt.1))
        else
          add128 prv.2 (u128OfI128 (balance_diff q table prv.1 h))
      (some bal, if bal ≠ prv.2 ∧ bal ≠ nxt.2 then cacheInsert c h bal else c)

/-- Run a sequence of `balance_at` probes left to right, collecting the
returned values and threading the cache. -/
def runProbes (q : CoinQuery) (table : List CoinRow) :
    List Nat → Cache → List (Option Nat) × Cache
  | [], c => ([], c)
  | h :: rest, c =>
    let r := balance_at q table c h
    let rec' := runProbes q table rest r.2
    (r.1 :: rec'.1, rec'.2)

/-- Transaction kinds of the ledger (`melstructs::TxKind`). -/
inductive TxKind where
  | Normal
  | Stake
  | DoscMint
  | Swap
  | LiqDeposit
  | LiqWithdraw
  | Faucet
deriving DecidableEq

/-- The payload of a coin as reported by a block or a snapshot
(`CoinData`); hashes, denominations and byte strings abstracted to codes. -/
structure CoinData where
  value : Nat
  denom : Nat
  covhash : Nat
  additional_data : Nat
deriving DecidableEq

/-- A `CoinID`: creating transaction hash and output index.  The index field
is a `u8` in the source, so every index stored here is already reduced
modulo 256. -/
abbrev CoinID := Nat × Nat

/-- The parts of a transaction the ingestion loop reads. -/
structure Transaction where
  hash_nosigs : Nat
  kind : TxKind
  outputs : List CoinData
  inputs : List CoinID
deriving DecidableEq

/-- The `new_coins : HashMap<CoinID, CoinData>` under construction. -/
abbrev CoinMap := List (CoinID × CoinData)

/-- `HashMap::get`-style lookup. -/
def lookupMap : CoinMap → CoinID → Option CoinData
  | [], _ => none
  | kv :: rest, id => if kv.1 = id then some kv.2 else lookupMap rest id

/-- `HashMap::remove`. -/
def removeMap (m : CoinMap) (id : CoinID) : CoinMap :=
  m.filter (fun kv => !decide (kv.1 = id))

/-- `HashMap::insert` (replaces any binding of the key). -/
def insertMap (m : CoinMap) (id : CoinID) (v : CoinData) : CoinMap :=
  (id, v) :: removeMap m id

/-- The enumerate-and-insert loop
`for (i, output) in tx.outputs.iter().enumerate()
   OUTPUTS: new_coins.insert(CoinID::new(tx.hash_nosigs(), i as _), output)`;
the index is cast to the `u8` field of `CoinID`, hence reduced mod 256. -/
def insertOuts (h : Nat) (m : CoinMap) (i : Nat) : List CoinData → CoinMap
  | [] => m
  | o :: rest => insertOuts h (insertMap m (h, i % 256) o) (i + 1) rest

/-- One transmutation step: `new_coins.remove(&id); if let Some(coin) =
snap.get_coin(id) { new_coins.insert(id, coin.coin_data); }`.  The second
component records, in order, every coin id the pinned snapshot was queried
for. -/
def transmuteOne (snap : CoinID → Option CoinData) (st : CoinMap × List CoinID)
    (id : CoinID) : CoinMap × List CoinID :=
  (match snap id with
   | some c => insertMap (removeMap st.1 id) id c
   | none => removeMap st.1 id,
   st.2 ++ [id])

/-- Transmute a list of coin ids in order. -/
def transmuteMany (snap : CoinID → Option CoinData) (st : CoinMap × List CoinID)
    (ids : List CoinID) : CoinMap × List CoinID :=
  ids.foldl (transmuteOne snap) st

/-- The coin ids visited by the `LiqWithdraw` loop
`for output in 0..(tx.outputs.len() as u8 + 1)`: the upper bound is the `u8`
cast of the length, incremented with wrapping `u8` arithmetic. -/
def liqWithdrawIds (tx : Transaction) : List CoinID :=
  (List.range ((tx.outputs.length % 256 + 1) % 256)).map (fun i => (tx.hash_nosigs, i))

/-- Processing of one transaction of the block inside `indexer_loop_once`:
insert every declared output, then apply the Swap rule (index 0), the
LiqDeposit rule (indices 0 and 1) and the LiqWithdraw rule (indices below the
wrapped bound), each guarded by the transaction kind.  The state is the
`new_coins` map together with the instrumented list of snapshot lookups. -/
def processTx (snap : CoinID → Option CoinData) (st : CoinMap × List CoinID)
    (tx : Transaction) : CoinMap × List CoinID :=
  let st0 := (insertOuts tx.hash_nosigs st.1 0 tx.outputs, st.2)
  let st1 := if tx.kind = TxKind.Swap then
      transmuteMany snap st0 [(tx.hash_nosigs, 0)] else st0
  let st2 := if tx.kind = TxKind.LiqDeposit then
      transmuteMany snap st1 ((List.range 2).map (fun i => (tx.hash_nosigs, i))) else st1
  let st3 := if tx.kind = TxKind.LiqWithdraw then
      transmuteMany snap st2 (liqWithdrawIds tx) else st2
  st3

/-- A commit-time mutation of the `coins` table. -/
inductive StoreOp where
  /-- `insert into coins values ($1, $2, $3, NULL, NULL, NULL, $4, $5, $6, $7)`
  with `UNIQUE(create_txhash, create_index, create_height) ON CONFLICT
  IGNORE`. -/
  | insertCoin (ctx cidx ch value denom covhash adata : Nat)
  /-- `update coins set spend_txhash = $1, spend_index = $2, spend_height = $3
  where create_txhash = $4 and create_index = $5`. -/
  | updateSpend (stx sidx sh ctx cidx : Nat)

/-- Apply one commit-time operation to the table state. -/
def applyOp (t : List CoinRow) : StoreOp → List CoinRow
  | .insertCoin ctx cidx ch value denom covhash adata =>
    if t.any (fun r =>
        decide (r.create_txhash = ctx ∧ r.create_index = cidx ∧ r.create_height = ch)) then
      t
    else
      t ++ [⟨ctx, cidx, ch, value, denom, covhash, adata, none, none, none⟩]
  | .updateSpend stx sidx sh ctx cidx =>
    t.map (fun r =>
      if r.create_txhash = ctx ∧ r.create_index = cidx then
        { r with spend_txhash := some stx, spend_index := some sidx,
                 spend_height := some sh }
      else r)

/-- Invariant A of the coin table: the three spend columns are all NULL or all
non-NULL. -/
def spendAllOrNone (r : CoinRow) : Prop :=
  (r.spend_txhash = none ∧ r.spend_index = none ∧ r.spend_height = none) ∨
  (r.spend_txhash ≠ none ∧ r.spend_index ≠ none ∧ r.spend_height ≠ none)

instance (r : CoinRow) : Decidable (spendAllOrNone r) := by
  unfold spendAllOrNone; infer_instance

/-- A well-formed coin row: Invariant A, and Invariant B (`spend_height ≥
create_height` when the spend triple is present). -/
def wfRow (r : CoinRow) : Prop :=
  spendAllOrNone r ∧ (∀ s, r.spend_height = some s → r.create_height ≤ s)

instance (r : CoinRow) : Decidable (wfRow r) := by
  unfold wfRow; exact instDecidableAnd

/-- A well-formed table: every row well-formed. -/
def wfTable (t : List CoinRow) : Prop := ∀ r ∈ t, wfRow r

instance (t : List CoinRow) : Decidable (wfTable t) := by
  unfold wfTable; infer_instance

/-- The from-scratch balance in the words of the specification: the sum of
values of coins matching the base query with `create_height ≤ h` and null
spend fields, plus the sum of values of coins matching the base query with
`create_height ≤ h` and `spend_height > h` (both sums with the same wrapping
`u128` fold the code uses). -/
def specScratch (q : CoinQuery) (table : List CoinRow) (h : Nat) : Nat :=
  add128
    (sum128 (table.filter (fun r =>
      rowMatches q r && decide (r.create_height ≤ h) && r.spend_txhash.isNone
        && r.spend_index.isNone && r.spend_height.isNone)))
    (sum128 (table.filter (fun r =>
      rowMatches q r && decide (r.create_height ≤ h)
        && (match r.spend_height with | some s => decide (h < s) | none => false))))

/-- The entry with the largest key in a list of cache entries. -/
def argmaxKey : List (Nat × Nat) → Option (Nat × Nat)
  | [] => none
  | kv :: rest =>
    match argmaxKey rest with
    | none => some kv
    | some best => if best.1 < kv.1 then some kv else some best

/-- The entry with the smallest key in a list of cache entries. -/
def argminKey : List (Nat × Nat) → Option (Nat × Nat)
  | [] => none
  | kv :: rest =>
    match argminKey rest with
    | none => some kv
    | some best => if kv.1 < best.1 then some kv else some best

/-- The greatest cached key strictly below `h`, in the words of the claim. -/
def specPrevSlot (c : Cache) (h : Nat) : Option (Nat × Nat) :=
  argmaxKey (c.filter (fun kv => decide (kv.1 < h)))

/-- The smallest cached key strictly above `h`, in the words of the claim. -/
def specNextSlot (c : Cache) (h : Nat) : Option (Nat × Nat) :=
  argminKey (c.filter (fun kv => decide (h < kv.1)))

/-- The neighbour-delta result in the words of the claim for C3: use whichever
cached neighbour of `h` is numerically closest, treating an absent neighbour
as being at distance plus-infinity (so the other side wins, and the value is
taken from the one existing neighbour), ties resolving toward the lower
neighbour; from the lower neighbour the result is its balance plus
`diff(prev, h)`, from the upper one its balance minus `diff(h, next)`. -/
def specClosestValue (q : CoinQuery) (table : List CoinRow) (c : Cache) (h : Nat) :
    Option Nat :=
  match specPrevSlot c h, specNextSlot c h with
  | none, none => none
  | some p, none => some (add128 p.2 (u128OfI128 (balance_diff q table p.1 h)))
  | none, some n => some (sub128 n.2 (u128OfI128 (balance_diff q table h n.1)))
  | some p, some n =>
    if absDiff h n.1 < absDiff h p.1 then
      some (sub128 n.2 (u128OfI128 (balance_diff q table h n.1)))
    else
      some (add128 p.2 (u128OfI128 (balance_diff q table p.1 h)))

/-- Saturating application of a signed delta to a `u128` balance, in the words
of the claim for C7: the exact integer result clamped into `[0, 2^128)`. -/
def satApply (b : Nat) (d : Int) : Nat :=
  (min (max ((b : Int) + d) 0) (u128ModZ - 1)).toNat

/-- The exact (unwrapped) signed value of `balance_diff`: the integer sum of
matching created values minus the integer sum of matching spent values. -/
def rowsSumZ (rows : List CoinRow) : Int :=
  (rows.map (fun r => (r.value : Int))).sum

/-- The exact signed interval delta. -/
def diffZ (q : CoinQuery) (table : List CoinRow) (start endH : Nat) : Int :=
  rowsSumZ (queryRows (diffCreateQuery q start endH) table)
    - rowsSumZ (queryRows (diffSpendQuery q start endH) table)

/-- The exact (unwrapped) from-scratch balance as an integer. -/
def scratchZ (q : CoinQuery) (table : List CoinRow) (h : Nat) : Int :=
  rowsSumZ (queryRows (scratchUnspentQuery q h) table)
    + rowsSumZ (queryRows (scratchSpentLaterQuery q h) table)

/-- A LiqWithdraw transaction with exactly 255 declared outputs. -/
def txLW255 : Transaction :=
  ⟨7, TxKind.LiqWithdraw, List.replicate 255 ⟨1, 1, 1, 0⟩, []⟩

/-- A snapshot that reports, for the first output of `txLW255`, a payload
different from the declared output. -/
def snapLW : CoinID → Option CoinData :=
  fun id => if id = (7, 0) then some ⟨2, 2, 2, 0⟩ else none

/-- A Swap transaction with one declared output. -/
def txSwap1 : Transaction := ⟨5, TxKind.Swap, [⟨1, 1, 1, 0⟩], []⟩

/-- A snapshot reporting a transmuted payload for the first output of
`txSwap1`. -/
def snapSwap : CoinID → Option CoinData :=
  fun id => if id = (5, 0) then some ⟨1, 3, 1, 0⟩ else none

/-- A single well-formed spent coin row: created at height 1 with value 7,
spent at height 2. -/
def rowSpent : CoinRow := ⟨9, 0, 1, 7, 0, 0, 0, some 3, some 0, some 2⟩

/-- A single well-formed unspent coin row: created at height 4 with value 7. -/
def rowUnspent4 : CoinRow := ⟨8, 0, 4, 7, 0, 0, 0, none, none, none⟩

/-- A single well-formed unspent coin row: created at height 5 with value 1. -/
def rowUnspent5 : CoinRow := ⟨6, 0, 5, 1, 0, 0, 0, none, none, none⟩

/-- A small well-formed table for balance-tracker witnesses: value 5 created
at height 1 and spent at height 200, value 11 created at height 250. -/
def tableW : List CoinRow :=
  [⟨1, 0, 1, 5, 0, 0, 0, some 2, some 0, some 200⟩,
   ⟨2, 0, 250, 11, 0, 0, 0, none, none, none⟩]


/-- The value the neighbour-delta branch of `balance_at` computes (the local
`balance` of the source): pick the closest of the two neighbour slots (absent
slots are the `(u64::MAX, 0)` sentinel), subtract the wrapped `balance_diff`
from the next slot's balance or add it to the previous slot's. -/
def deltaVal (q : CoinQuery) (table : List CoinRow) (c : Cache) (h : Nat) : Nat :=
  let nxt := (minAbove c ((h + 1) % u64Mod)).getD (u64Max, 0)
  let prv := (maxBelow c h).getD (u64Max, 0)
  if absDiff h nxt.1 < absDiff h prv.1 then
    sub128 nxt.2 (u128OfI128 (balance_diff q table h nxt.1))
  else
    add128 prv.2 (u128OfI128 (balance_diff q table prv.1 h))

/-- The cache correctness invariant maintained by `balance_at` over tables
satisfying Invariants A and B, for probe heights below 2^63: every cached
entry holds the from-scratch balance of its height. -/
def cacheInv (q : CoinQuery) (table : List CoinRow) (c : Cache) : Prop :=
  ∀ kv ∈ c, kv.1 < halfU64 ∧ kv.2 = scratchBalance q table kv.1

/-- `i64::MAX` = 2^63 - 1, the largest integer SQLite can bind: rusqlite's
`ToSql` implementation for `u64` is `i64::try_from`, so binding any `u64`
parameter above this value fails and the source's
`stmt.query_map(&params[..], ..).unwrap()` panics. -/
def i64Max : Nat := 9223372036854775807

/-- Whether a column's parameters are bound as `u64` (the two height columns;
`value` parameters are bound as 16-byte blobs and all equality parameters as
strings, bytes or `u8`, none of which can fail). -/
def Col.u64Bind : Col → Bool
  | .create_height => true
  | .spend_height => true
  | _ => false

/-- Whether binding this filter's parameter fails (and hence the query panics
in `query_map(..).unwrap()`): a range bound on a height column whose value
exceeds `i64::MAX`. -/
def Filter.bindFails : Filter → Bool
  | .geF c v => c.u64Bind && decide (i64Max < v)
  | .gtF c v => c.u64Bind && decide (i64Max < v)
  | .leF c v => c.u64Bind && decide (i64Max < v)
  | .ltF c v => c.u64Bind && decide (i64Max < v)
  | .eqF _ _ => false
  | .isNullSpendTxhash => false

/-- A query all of whose own parameters bind successfully.  Executions that
complete (rather than panicking inside `iter`) are exactly those whose issued
queries satisfy this; theorems about completing executions carry it, together
with height bounds keeping the pushed range parameters representable. -/
def CoinQuery.bindsOk (q : CoinQuery) : Prop :=
  ∀ f ∈ q.filters, f.bindFails = false

instance (q : CoinQuery) : Decidable (q.bindsOk) := by
  unfold CoinQuery.bindsOk; infer_instance

/-! ### Structural lemmas: maps, caches, neighbour search -/

theorem lookup_removeMap_self (m : CoinMap) (id : CoinID) :
    lookupMap (removeMap m id) id = none := by
  induction m with
  | nil => rfl
  | cons kv rest ih =>
    unfold removeMap at ih ⊢
    rw [List.filter_cons]
    by_cases h1 : kv.1 = id
    · simpa [h1] using ih
    · simpa [h1, lookupMap] using ih

theorem lookup_removeMap_ne (m : CoinMap) (id k : CoinID) (h : k ≠ id) :
    lookupMap (removeMap m id) k = lookupMap m k := by
  have hid : ¬id = k := fun hh => h hh.symm
  induction m with
  | nil => rfl
  | cons kv rest ih =>
    unfold removeMap at ih ⊢
    rw [List.filter_cons]
    by_cases h1 : kv.1 = id
    · simp [h1, lookupMap, hid, ih]
    · by_cases h2 : kv.1 = k <;> simp [h1, lookupMap, h2, h, hid, ih]

theorem lookup_insertMap_self (m : CoinMap) (id : CoinID) (v : CoinData) :
    lookupMap (insertMap m id v) id = some v := by
  simp [insertMap, lookupMap]

theorem lookup_insertMap_ne (m : CoinMap) (id k : CoinID) (v : CoinData)
    (h : k ≠ id) : lookupMap (insertMap m id v) k = lookupMap m k := by
  have h2 : ¬id = k := fun hh => h hh.symm
  simp [insertMap, lookupMap, h2, lookup_removeMap_ne m id k h]

theorem queried_transmuteOne (snap : CoinID → Option CoinData)
    (st : CoinMap × List CoinID) (id : CoinID) :
    (transmuteOne snap st id).2 = st.2 ++ [id] := rfl

theorem lookup_transmuteOne_self (snap : CoinID → Option CoinData)
    (st : CoinMap × List CoinID) (id : CoinID) :
    lookupMap (transmuteOne snap st id).1 id = snap id := by
  unfold transmuteOne
  cases h : snap id with
  | none => simp [lookup_removeMap_self]
  | some c => simp [lookup_insertMap_self]

theorem lookup_transmuteOne_ne (snap : CoinID → Option CoinData)
    (st : CoinMap × List CoinID) (id k : CoinID) (h : k ≠ id) :
    lookupMap (transmuteOne snap st id).1 k = lookupMap st.1 k := by
  unfold transmuteOne
  cases hs : snap id with
  | none => simp [lookup_removeMap_ne _ _ _ h]
  | some c => simp [lookup_insertMap_ne _ _ _ _ h, lookup_removeMap_ne _ _ _ h]

theorem queried_transmuteMany (snap : CoinID → Option CoinData)
    (st : CoinMap × List CoinID) (ids : List CoinID) :
    (transmuteMany snap st ids).2 = st.2 ++ ids := by
  induction ids generalizing st with
  | nil => simp [transmuteMany]
  | cons id rest ih =>
    have hstep : transmuteMany snap st (id :: rest)
        = transmuteMany snap (transmuteOne snap st id) rest := rfl
    rw [hstep, ih, queried_transmuteOne]
    simp

theorem lookup_transmuteMany (snap : CoinID → Option CoinData)
    (st : CoinMap × List CoinID) (ids : List CoinID) (k : CoinID) :
    lookupMap (transmuteMany snap st ids).1 k
      = if k ∈ ids then snap k else lookupMap st.1 k := by
  induction ids generalizing st with
  | nil => simp [transmuteMany]
  | cons id rest ih =>
    have hstep : transmuteMany snap st (id :: rest)
        = transmuteMany snap (transmuteOne snap st id) rest := rfl
    rw [hstep, ih]
    by_cases hr : k ∈ rest
    · simp [hr]
    · by_cases hid : k = id
      · subst hid
        simp [hr, lookup_transmuteOne_self]
      · simp [hr, hid, lookup_transmuteOne_ne snap st id k hid]

theorem lookup_insertOuts_untouched (hsh : Nat) (os : List CoinData)
    (m : CoinMap) (i : Nat) (k : CoinID)
    (h : ∀ j, j < os.length → k ≠ (hsh, (i + j) % 256)) :
    lookupMap (insertOuts hsh m i os) k = lookupMap m k := by
  induction os generalizing m i with
  | nil => rfl
  | cons o rest ih =>
    have h0 : k ≠ (hsh, i % 256) := by
      have := h 0 (by simp)
      simpa using this
    have hrest : ∀ j, j < rest.length → k ≠ (hsh, (i + 1 + j) % 256) := by
      intro j hj
      have hjj : j + 1 < (o :: rest).length := by simp; omega
      have := h (j + 1) hjj
      have harith : i + (j + 1) = i + 1 + j := by omega
      rwa [harith] at this
    calc lookupMap (insertOuts hsh (insertMap m (hsh, i % 256) o) (i + 1) rest) k
        = lookupMap (insertMap m (hsh, i % 256) o) k := ih _ _ hrest
      _ = lookupMap m k := lookup_insertMap_ne _ _ _ _ h0

theorem lookup_insertOuts_at (hsh : Nat) (os : List CoinData)
    (m : CoinMap) (i j : Nat) (hlen : os.length ≤ 256) (hj : j < os.length) :
    lookupMap (insertOuts hsh m i os) (hsh, (i + j) % 256) = os.get? j := by
  induction os generalizing m i j with
  | nil => simp at hj
  | cons o rest ih =>
    have hlen' : rest.length ≤ 256 := by
      simp at hlen; omega
    have hstep : insertOuts hsh m i (o :: rest)
        = insertOuts hsh (insertMap m (hsh, i % 256) o) (i + 1) rest := rfl
    cases j with
    | zero =>
      have huntouched : ∀ j', j' < rest.length →
          ((hsh, (i + 0) % 256) : CoinID) ≠ (hsh, (i + 1 + j') % 256) := by
        intro j' hj'
        have hlen2 : rest.length + 1 ≤ 256 := by simp at hlen; omega
        intro heq
        have hmods : (i + 0) % 256 = (i + 1 + j') % 256 := by
          have := congrArg Prod.snd heq
          simpa using this
        omega
      rw [hstep, lookup_insertOuts_untouched hsh rest _ _ _ huntouched]
      have hkey : ((i + 0) % 256) = i % 256 := by omega
      rw [hkey, lookup_insertMap_self]
      rfl
    | succ j' =>
      have hj' : j' < rest.length := by simp at hj; omega
      have harith : i + (j' + 1) = (i + 1) + j' := by omega
      rw [hstep, harith, ih _ _ _ hlen' hj']
      rfl

theorem cacheGet_mem (c : Cache) (h v : Nat) (hc : cacheGet c h = some v) :
    (h, v) ∈ c := by
  induction c with
  | nil => simp [cacheGet] at hc
  | cons kv rest ih =>
    by_cases hk : kv.1 = h
    · simp [cacheGet, hk] at hc
      have : kv = (h, v) := by
        cases kv; simp_all
      rw [← this]
      exact List.mem_cons_self _ _
    · simp [cacheGet, hk] at hc
      exact List.mem_cons_of_mem _ (ih hc)

theorem cacheGet_none_not_mem (c : Cache) (h : Nat) (hc : cacheGet c h = none)
    (v : Nat) : (h, v) ∉ c := by
  induction c with
  | nil => simp
  | cons kv rest ih =>
    by_cases hk : kv.1 = h
    · simp [cacheGet, hk] at hc
    · simp [cacheGet, hk] at hc
      intro hmem
      rcases List.mem_cons.mp hmem with heq | hmem'
      · exact hk (by rw [← heq])
      · exact ih hc hmem'

theorem mem_cacheInsert (c : Cache) (h v : Nat) (kv : Nat × Nat)
    (hm : kv ∈ cacheInsert c h v) : kv = (h, v) ∨ kv ∈ c := by
  rcases List.mem_cons.mp hm with heq | hmem
  · exact Or.inl heq
  · exact Or.inr (List.mem_of_mem_filter hmem)

theorem cacheGet_cacheInsert_self (c : Cache) (h v : Nat) :
    cacheGet (cacheInsert c h v) h = some v := by
  simp [cacheInsert, cacheGet]

theorem cacheGet_filter_ne (c : Cache) (h k : Nat) (hk : k ≠ h) :
    cacheGet (c.filter (fun kv => !decide (kv.1 = h))) k = cacheGet c k := by
  have hhk : ¬h = k := fun hh => hk hh.symm
  induction c with
  | nil => rfl
  | cons kv rest ih =>
    rw [List.filter_cons]
    by_cases h1 : kv.1 = h
    · simp [h1, cacheGet, hhk, ih]
    · by_cases h2 : kv.1 = k <;> simp [h1, cacheGet, h2, hk, hhk, ih]

theorem cacheGet_cacheInsert_ne (c : Cache) (h v k : Nat) (hk : k ≠ h) :
    cacheGet (cacheInsert c h v) k = cacheGet c k := by
  have h2 : ¬h = k := fun hh => hk hh.symm
  unfold cacheInsert
  rw [show cacheGet ((h, v) :: List.filter (fun kv => !decide (kv.1 = h)) c) k
      = if h = k then some v
        else cacheGet (List.filter (fun kv => !decide (kv.1 = h)) c) k from rfl,
    if_neg h2, cacheGet_filter_ne c h k hk]

theorem minAbove_cons_none (kv : Nat × Nat) (rest : Cache) (b : Nat)
    (h : minAbove rest b = none) :
    minAbove (kv :: rest) b = if b ≤ kv.1 then some kv else none := by
  unfold minAbove
  rw [h]

theorem minAbove_cons_some (kv : Nat × Nat) (rest : Cache) (b : Nat)
    (best : Nat × Nat) (h : minAbove rest b = some best) :
    minAbove (kv :: rest) b
      = if b ≤ kv.1 ∧ kv.1 < best.1 then some kv else some best := by
  unfold minAbove
  rw [h]

theorem maxBelow_cons_none (kv : Nat × Nat) (rest : Cache) (b : Nat)
    (h : maxBelow rest b = none) :
    maxBelow (kv :: rest) b = if kv.1 < b then some kv else none := by
  unfold maxBelow
  rw [h]

theorem maxBelow_cons_some (kv : Nat × Nat) (rest : Cache) (b : Nat)
    (best : Nat × Nat) (h : maxBelow rest b = some best) :
    maxBelow (kv :: rest) b
      = if kv.1 < b ∧ best.1 < kv.1 then some kv else some best := by
  unfold maxBelow
  rw [h]

theorem minAbove_none (c : Cache) (b : Nat) (hn : minAbove c b = none) :
    ∀ kv ∈ c, kv.1 < b := by
  induction c with
  | nil => simp
  | cons kv rest ih =>
    intro kv' hkv'
    cases hrest : minAbove rest b with
    | none =>
      rw [minAbove_cons_none kv rest b hrest] at hn
      by_cases hb : b ≤ kv.1
      · rw [if_pos hb] at hn; exact absurd hn (by simp)
      · rcases List.mem_cons.mp hkv' with heq | hmem
        · rw [heq]; omega
        · exact ih hrest kv' hmem
    | some best =>
      rw [minAbove_cons_some kv rest b best hrest] at hn
      by_cases hcond : b ≤ kv.1 ∧ kv.1 < best.1 <;>
        simp [hcond] at hn

theorem maxBelow_none (c : Cache) (b : Nat) (hn : maxBelow c b = none) :
    ∀ kv ∈ c, b ≤ kv.1 := by
  induction c with
  | nil => simp
  | cons kv rest ih =>
    intro kv' hkv'
    cases hrest : maxBelow rest b with
    | none =>
      rw [maxBelow_cons_none kv rest b hrest] at hn
      by_cases hb : kv.1 < b
      · rw [if_pos hb] at hn; exact absurd hn (by simp)
      · rcases List.mem_cons.mp hkv' with heq | hmem
        · rw [heq]; omega
        · exact ih hrest kv' hmem
    | some best =>
      rw [maxBelow_cons_some kv rest b best hrest] at hn
      by_cases hcond : kv.1 < b ∧ best.1 < kv.1 <;>
        simp [hcond] at hn

theorem minAbove_spec (c : Cache) (b : Nat) :
    ∀ p, minAbove c b = some p →
      p ∈ c ∧ b ≤ p.1 ∧ ∀ kv ∈ c, b ≤ kv.1 → p.1 ≤ kv.1 := by
  induction c with
  | nil => intro p hp; simp [minAbove] at hp
  | cons kv rest ih =>
    intro p hp
    cases hrest : minAbove rest b with
    | none =>
      rw [minAbove_cons_none kv rest b hrest] at hp
      by_cases hb : b ≤ kv.1
      · rw [if_pos hb] at hp
        have hkvp : kv = p := by injection hp
        subst hkvp
        refine ⟨List.mem_cons_self _ _, hb, ?_⟩
        intro kv' hkv' hb'
        rcases List.mem_cons.mp hkv' with heq | hmem
        · rw [heq]
        · have := minAbove_none rest b hrest kv' hmem
          omega
      · rw [if_neg hb] at hp
        exact absurd hp (by simp)
    | some best =>
      rw [minAbove_cons_some kv rest b best hrest] at hp
      obtain ⟨hmem, hble, hmin⟩ := ih best hrest
      by_cases hcond : b ≤ kv.1 ∧ kv.1 < best.1
      · rw [if_pos hcond] at hp
        have hkvp : kv = p := by injection hp
        subst hkvp
        refine ⟨List.mem_cons_self _ _, hcond.1, ?_⟩
        intro kv' hkv' hb'
        rcases List.mem_cons.mp hkv' with heq | hmem'
        · rw [heq]
        · have := hmin kv' hmem' hb'
          omega
      · rw [if_neg hcond] at hp
        have hbp : best = p := by injection hp
        subst hbp
        refine ⟨List.mem_cons_of_mem _ hmem, hble, ?_⟩
        intro kv' hkv' hb'
        rcases List.mem_cons.mp hkv' with heq | hmem'
        · subst heq
          rcases not_and_or.mp hcond with h1 | h1
          · exact absurd hb' h1
          · omega
        · exact hmin kv' hmem' hb'

theorem maxBelow_spec (c : Cache) (b : Nat) :
    ∀ p, maxBelow c b = some p →
      p ∈ c ∧ p.1 < b ∧ ∀ kv ∈ c, kv.1 < b → kv.1 ≤ p.1 := by
  induction c with
  | nil => intro p hp; simp [maxBelow] at hp
  | cons kv rest ih =>
    intro p hp
    cases hrest : maxBelow rest b with
    | none =>
      rw [maxBelow_cons_none kv rest b hrest] at hp
      by_cases hb : kv.1 < b
      · rw [if_pos hb] at hp
        have hkvp : kv = p := by injection hp
        subst hkvp
        refine ⟨List.mem_cons_self _ _, hb, ?_⟩
        intro kv' hkv' hb'
        rcases List.mem_cons.mp hkv' with heq | hmem
        · rw [heq]
        · have := maxBelow_none rest b hrest kv' hmem
          omega
      · rw [if_neg hb] at hp
        exact absurd hp (by simp)
    | some best =>
      rw [maxBelow_cons_some kv rest b best hrest] at hp
      obtain ⟨hmem, hble, hmax⟩ := ih best hrest
      by_cases hcond : kv.1 < b ∧ best.1 < kv.1
      · rw [if_pos hcond] at hp
        have hkvp : kv = p := by injection hp
        subst hkvp
        refine ⟨List.mem_cons_self _ _, hcond.1, ?_⟩
        intro kv' hkv' hb'
        rcases List.mem_cons.mp hkv' with heq | hmem'
        · rw [heq]
        · have := hmax kv' hmem' hb'
          omega
      · rw [if_neg hcond] at hp
        have hbp : best = p := by injection hp
        subst hbp
        refine ⟨List.mem_cons_of_mem _ hmem, hble, ?_⟩
        intro kv' hkv' hb'
        rcases List.mem_cons.mp hkv' with heq | hmem'
        · subst heq
          rcases not_and_or.mp hcond with h1 | h1
          · exact absurd hb' h1
          · omega
        · exact hmax kv' hmem' hb'

/-! ### Modular arithmetic: the wrapped computations agree with the exact
integer values modulo 2^128 -/

theorem u128Mod_pos : 0 < u128Mod := by unfold u128Mod; omega

theorem u128Mod_cast : ((u128Mod : Nat) : Int) = u128ModZ := by
  unfold u128Mod u128ModZ; norm_num

theorem emod_modeq (z M : Int) : z % M ≡ z [ZMOD M] :=
  Int.emod_emod_of_dvd z dvd_rfl

theorem i128wrap_modeq (z : Int) : i128wrap z ≡ z [ZMOD u128ModZ] := by
  unfold i128wrap
  have h1 : (z + i128Half) % u128ModZ ≡ z + i128Half [ZMOD u128ModZ] :=
    emod_modeq _ _
  have h2 := h1.sub_right i128Half
  simpa using h2

theorem add128_modeq (a b : Nat) :
    ((add128 a b : Nat) : Int) ≡ (a : Int) + b [ZMOD u128ModZ] := by
  unfold add128
  have hcast : ((((a + b) % u128Mod : Nat)) : Int) = ((a : Int) + b) % u128ModZ := by
    push_cast [u128Mod_cast]
    ring
  rw [hcast]
  exact emod_modeq _ _

theorem add128_lt (a b : Nat) : add128 a b < u128Mod :=
  Nat.mod_lt _ u128Mod_pos

theorem sub128_modeq (a b : Nat) :
    ((sub128 a b : Nat) : Int) ≡ (a : Int) - b [ZMOD u128ModZ] := by
  unfold sub128
  have hble : b % u128Mod ≤ u128Mod := le_of_lt (Nat.mod_lt _ u128Mod_pos)
  have hcast : ((((a + (u128Mod - b % u128Mod)) % u128Mod : Nat)) : Int)
      = ((a : Int) + (u128ModZ - (b : Int) % u128ModZ)) % u128ModZ := by
    rw [Int.natCast_mod, Nat.cast_add, Nat.cast_sub hble, Int.natCast_mod,
      u128Mod_cast]
  rw [hcast]
  refine (emod_modeq _ _).trans (Int.modEq_iff_dvd.mpr ?_)
  have hb : (b : Int) % u128ModZ = b - u128ModZ * ((b : Int) / u128ModZ) :=
    Int.emod_def _ _
  refine ⟨-(((b : Int) / u128ModZ) + 1), ?_⟩
  rw [hb]
  ring

theorem sub128_lt (a b : Nat) : sub128 a b < u128Mod :=
  Nat.mod_lt _ u128Mod_pos

theorem u128OfI128_cast (z : Int) : ((u128OfI128 z : Nat) : Int) = z % u128ModZ := by
  unfold u128OfI128
  have hz : (0 : Int) ≤ z % u128ModZ := by
    apply Int.emod_nonneg
    unfold u128ModZ; norm_num
  exact Int.toNat_of_nonneg hz

theorem u128OfI128_modeq (z : Int) :
    ((u128OfI128 z : Nat) : Int) ≡ z [ZMOD u128ModZ] := by
  rw [u128OfI128_cast]; exact emod_modeq _ _

theorem i128OfU128_modeq (v : Nat) :
    i128OfU128 v ≡ (v : Int) [ZMOD u128ModZ] := i128wrap_modeq _

theorem sumI128_modeq_aux (rows : List CoinRow) :
    ∀ a : Int, rows.foldl (fun a r => i128wrap (a + i128OfU128 r.value)) a
      ≡ a + rowsSumZ rows [ZMOD u128ModZ] := by
  induction rows with
  | nil => intro a; simp [rowsSumZ]
  | cons r rest ih =>
    intro a
    have hstep : (r :: rest).foldl (fun a r => i128wrap (a + i128OfU128 r.value)) a
        = rest.foldl (fun a r => i128wrap (a + i128OfU128 r.value))
            (i128wrap (a + i128OfU128 r.value)) := rfl
    rw [hstep]
    have h1 := ih (i128wrap (a + i128OfU128 r.value))
    have h2 : i128wrap (a + i128OfU128 r.value) ≡ a + (r.value : Int)
        [ZMOD u128ModZ] :=
      (i128wrap_modeq _).trans ((Int.ModEq.refl _).add (i128OfU128_modeq _))
    have h3 := h1.trans (h2.add_right (rowsSumZ rest))
    have h4 : a + (r.value : Int) + rowsSumZ rest = a + rowsSumZ (r :: rest) := by
      simp [rowsSumZ]
      ring
    rwa [h4] at h3

theorem sumI128_modeq (rows : List CoinRow) :
    sumI128 rows ≡ rowsSumZ rows [ZMOD u128ModZ] := by
  have := sumI128_modeq_aux rows 0
  simpa [sumI128] using this

theorem sum128_modeq_aux (rows : List CoinRow) :
    ∀ a : Nat, ((rows.foldl (fun a r => add128 a r.value) a : Nat) : Int)
      ≡ (a : Int) + rowsSumZ rows [ZMOD u128ModZ] := by
  induction rows with
  | nil => intro a; simp [rowsSumZ]
  | cons r rest ih =>
    intro a
    have hstep : (r :: rest).foldl (fun a r => add128 a r.value) a
        = rest.foldl (fun a r => add128 a r.value) (add128 a r.value) := rfl
    rw [hstep]
    have h1 := ih (add128 a r.value)
    have h2 : ((add128 a r.value : Nat) : Int) ≡ (a : Int) + (r.value : Int)
        [ZMOD u128ModZ] := add128_modeq a r.value
    have h3 := h1.trans (h2.add_right (rowsSumZ rest))
    have h4 : (a : Int) + (r.value : Int) + rowsSumZ rest
        = (a : Int) + rowsSumZ (r :: rest) := by
      simp [rowsSumZ]
      ring
    rwa [h4] at h3

theorem sum128_modeq (rows : List CoinRow) :
    ((sum128 rows : Nat) : Int) ≡ rowsSumZ rows [ZMOD u128ModZ] := by
  have := sum128_modeq_aux rows 0
  simpa [sum128] using this

theorem nat_eq_of_modeq (a b : Nat) (ha : a < u128Mod) (hb : b < u128Mod)
    (h : ((a : Nat) : Int) ≡ ((b : Nat) : Int) [ZMOD u128ModZ]) : a = b := by
  have haz : ((a : Nat) : Int) < u128ModZ := by
    rw [← u128Mod_cast]; exact_mod_cast ha
  have hbz : ((b : Nat) : Int) < u128ModZ := by
    rw [← u128Mod_cast]; exact_mod_cast hb
  have ha0 : (0 : Int) ≤ ((a : Nat) : Int) := Int.ofNat_nonneg a
  have hb0 : (0 : Int) ≤ ((b : Nat) : Int) := Int.ofNat_nonneg b
  have hma : ((a : Nat) : Int) % u128ModZ = ((a : Nat) : Int) :=
    Int.emod_eq_of_lt ha0 haz
  have hmb : ((b : Nat) : Int) % u128ModZ = ((b : Nat) : Int) :=
    Int.emod_eq_of_lt hb0 hbz
  have heq : ((a : Nat) : Int) = ((b : Nat) : Int) := by
    have := h
    unfold Int.ModEq at this
    rw [hma, hmb] at this
    exact this
  exact_mod_cast heq

theorem scratchBalance_modeq (q : CoinQuery) (t : List CoinRow) (h : Nat) :
    ((scratchBalance q t h : Nat) : Int) ≡ scratchZ q t h [ZMOD u128ModZ] := by
  unfold scratchBalance scratchZ
  exact (add128_modeq _ _).trans ((sum128_modeq _).add (sum128_modeq _))

theorem scratchBalance_lt (q : CoinQuery) (t : List CoinRow) (h : Nat) :
    scratchBalance q t h < u128Mod := add128_lt _ _

theorem balance_diff_modeq (q : CoinQuery) (t : List CoinRow) (a b : Nat) :
    balance_diff q t a b ≡ diffZ q t a b [ZMOD u128ModZ] := by
  unfold balance_diff diffZ
  exact (i128wrap_modeq _).trans ((sumI128_modeq _).sub (sumI128_modeq _))

/-! ### Query decomposition and the interval-delta identity -/

theorem queryRows_eq_filter (q' : CoinQuery) (t : List CoinRow)
    (hne : q'.filters ≠ []) :
    queryRows q' t = t.filter (fun r => rowMatches q' r) := by
  unfold queryRows CoinQuery.iter
  rw [if_neg (by simpa [List.isEmpty_iff] using hne)]
  rfl

theorem scratchUnspentQuery_filters_ne (q : CoinQuery) (h : Nat) :
    (scratchUnspentQuery q h).filters ≠ [] := by
  simp [scratchUnspentQuery, CoinQuery.unspent]

theorem scratchSpentLaterQuery_filters_ne (q : CoinQuery) (h : Nat) :
    (scratchSpentLaterQuery q h).filters ≠ [] := by
  simp [scratchSpentLaterQuery, CoinQuery.spend_height_range,
    CoinQuery.add_range_filter]

theorem diffCreateQuery_filters_ne (q : CoinQuery) (a b : Nat) :
    (diffCreateQuery q a b).filters ≠ [] := by
  simp [diffCreateQuery, CoinQuery.create_height_range, CoinQuery.add_range_filter]

theorem diffSpendQuery_filters_ne (q : CoinQuery) (a b : Nat) :
    (diffSpendQuery q a b).filters ≠ [] := by
  simp [diffSpendQuery, CoinQuery.spend_height_range, CoinQuery.add_range_filter]

theorem rowMatches_scratchUnspent (q : CoinQuery) (h : Nat) (r : CoinRow) :
    rowMatches (scratchUnspentQuery q h) r = true
      ↔ (rowMatches q r = true ∧ r.create_height ≤ h ∧ r.spend_txhash = none) := by
  simp [scratchUnspentQuery, CoinQuery.unspent, CoinQuery.create_height_range,
    CoinQuery.add_range_filter, rowMatches, List.all_append, Filter.matchesRow,
    Col.read, Option.isNone_iff_eq_none, and_assoc]

theorem rowMatches_scratchSpentLater (q : CoinQuery) (h : Nat) (r : CoinRow) :
    rowMatches (scratchSpentLaterQuery q h) r = true
      ↔ (rowMatches q r = true ∧ r.create_height ≤ h ∧
          (match r.spend_height with
           | some s => (h + 1) % u64Mod ≤ s
           | none => False)) := by
  cases hsp : r.spend_height with
  | none =>
    simp [scratchSpentLaterQuery, CoinQuery.spend_height_range,
      CoinQuery.create_height_range, CoinQuery.add_range_filter, rowMatches,
      List.all_append, Filter.matchesRow, Col.read, hsp]
  | some s =>
    simp [scratchSpentLaterQuery, CoinQuery.spend_height_range,
      CoinQuery.create_height_range, CoinQuery.add_range_filter, rowMatches,
      List.all_append, Filter.matchesRow, Col.read, hsp, and_assoc]

theorem rowMatches_diffCreate (q : CoinQuery) (a b : Nat) (r : CoinRow) :
    rowMatches (diffCreateQuery q a b) r = true
      ↔ (rowMatches q r = true ∧ (a + 1) % u64Mod ≤ r.create_height ∧
          r.create_height ≤ b) := by
  simp [diffCreateQuery, CoinQuery.create_height_range, CoinQuery.add_range_filter,
    rowMatches, List.all_append, Filter.matchesRow, Col.read, and_assoc]

theorem rowMatches_diffSpend (q : CoinQuery) (a b : Nat) (r : CoinRow) :
    rowMatches (diffSpendQuery q a b) r = true
      ↔ (rowMatches q r = true ∧
          (match r.spend_height with
           | some s => (a + 1) % u64Mod ≤ s ∧ s ≤ b
           | none => False)) := by
  cases hsp : r.spend_height with
  | none =>
    simp [diffSpendQuery, CoinQuery.spend_height_range,
      CoinQuery.add_range_filter, rowMatches, List.all_append, Filter.matchesRow,
      Col.read, hsp]
  | some s =>
    simp [diffSpendQuery, CoinQuery.spend_height_range,
      CoinQuery.add_range_filter, rowMatches, List.all_append, Filter.matchesRow,
      Col.read, hsp, and_assoc]

theorem rowsSumZ_filter (p : CoinRow → Bool) (t : List CoinRow) :
    rowsSumZ (t.filter p)
      = (t.map (fun r => if p r = true then (r.value : Int) else 0)).sum := by
  induction t with
  | nil => rfl
  | cons r rest ih =>
    rw [List.filter_cons]
    simp only [rowsSumZ] at ih ⊢
    by_cases hp : p r = true <;> simp [hp, ih]

theorem sum_split (f1 f2 g1 g2 dA dB : CoinRow → Int) (t : List CoinRow)
    (hrow : ∀ r ∈ t, f2 r + g2 r = (f1 r + g1 r) + (dA r - dB r)) :
    (t.map f2).sum + (t.map g2).sum
      = ((t.map f1).sum + (t.map g1).sum)
        + ((t.map dA).sum - (t.map dB).sum) := by
  induction t with
  | nil => simp
  | cons r rest ih =>
    simp only [List.map_cons, List.sum_cons]
    have h1 := hrow r (List.mem_cons_self _ _)
    have h2 := ih (fun r' hr' => hrow r' (List.mem_cons_of_mem _ hr'))
    omega

theorem succ_mod_u64 (x : Nat) (hx : x < u64Max) : (x + 1) % u64Mod = x + 1 := by
  unfold u64Mod u64Max at *
  omega

theorem scratch_delta (q : CoinQuery) (t : List CoinRow) (h1 h2 : Nat)
    (hwf : wfTable t) (hlt : h1 < h2) (hb : h2 < u64Max) :
    scratchZ q t h2 = scratchZ q t h1 + diffZ q t h1 h2 := by
  unfold scratchZ diffZ
  rw [queryRows_eq_filter _ _ (scratchUnspentQuery_filters_ne q h2),
    queryRows_eq_filter _ _ (scratchSpentLaterQuery_filters_ne q h2),
    queryRows_eq_filter _ _ (scratchUnspentQuery_filters_ne q h1),
    queryRows_eq_filter _ _ (scratchSpentLaterQuery_filters_ne q h1),
    queryRows_eq_filter _ _ (diffCreateQuery_filters_ne q h1 h2),
    queryRows_eq_filter _ _ (diffSpendQuery_filters_ne q h1 h2),
    rowsSumZ_filter, rowsSumZ_filter, rowsSumZ_filter, rowsSumZ_filter,
    rowsSumZ_filter, rowsSumZ_filter]
  apply sum_split
  intro r hr
  obtain ⟨hAON, hBnd⟩ := hwf r hr
  have hm1 : (h1 + 1) % u64Mod = h1 + 1 := succ_mod_u64 h1 (by omega)
  have hm2 : (h2 + 1) % u64Mod = h2 + 1 := succ_mod_u64 h2 hb
  by_cases hq : rowMatches q r = true
  · cases hsp : r.spend_height with
    | none =>
      have htx : r.spend_txhash = none := by
        rcases hAON with ⟨hA, _, _⟩ | ⟨_, _, hC⟩
        · exact hA
        · exact absurd hsp hC
      simp only [rowMatches_scratchUnspent, rowMatches_scratchSpentLater,
        rowMatches_diffCreate, rowMatches_diffSpend, hq, htx, hsp, hm1, hm2,
        true_and, and_true, and_false, if_false]
      split_ifs <;> omega
    | some s =>
      have htx : r.spend_txhash ≠ none := by
        rcases hAON with ⟨_, _, hC⟩ | ⟨hA, _, _⟩
        · rw [hC] at hsp; exact absurd hsp (by simp)
        · exact hA
      have hcs : r.create_height ≤ s := hBnd s hsp
      simp only [rowMatches_scratchUnspent, rowMatches_scratchSpentLater,
        rowMatches_diffCreate, rowMatches_diffSpend, hq, htx, hsp, hm1, hm2,
        true_and, and_true, and_false, false_and, if_false]
      split_ifs <;> omega
  · cases hsp : r.spend_height with
    | none =>
      simp only [rowMatches_scratchUnspent, rowMatches_scratchSpentLater,
        rowMatches_diffCreate, rowMatches_diffSpend, hq, hsp, false_and, if_false]
      simp
    | some s =>
      simp only [rowMatches_scratchUnspent, rowMatches_scratchSpentLater,
        rowMatches_diffCreate, rowMatches_diffSpend, hq, hsp, false_and, if_false]
      simp

/-! ### Transfer of the identity through the wrapped arithmetic -/

theorem delta_from_prev (q : CoinQuery) (t : List CoinRow) (h1 h2 : Nat)
    (hwf : wfTable t) (hlt : h1 < h2) (hb : h2 < u64Max) :
    add128 (scratchBalance q t h1) (u128OfI128 (balance_diff q t h1 h2))
      = scratchBalance q t h2 := by
  apply nat_eq_of_modeq _ _ (add128_lt _ _) (scratchBalance_lt q t h2)
  have e1 := add128_modeq (scratchBalance q t h1)
    (u128OfI128 (balance_diff q t h1 h2))
  have e2 := scratchBalance_modeq q t h1
  have e3 := (u128OfI128_modeq (balance_diff q t h1 h2)).trans
    (balance_diff_modeq q t h1 h2)
  have e4 := e1.trans (e2.add e3)
  rw [← scratch_delta q t h1 h2 hwf hlt hb] at e4
  exact e4.trans (scratchBalance_modeq q t h2).symm

theorem delta_from_next (q : CoinQuery) (t : List CoinRow) (h1 h2 : Nat)
    (hwf : wfTable t) (hlt : h1 < h2) (hb : h2 < u64Max) :
    sub128 (scratchBalance q t h2) (u128OfI128 (balance_diff q t h1 h2))
      = scratchBalance q t h1 := by
  apply nat_eq_of_modeq _ _ (sub128_lt _ _) (scratchBalance_lt q t h1)
  have e1 := sub128_modeq (scratchBalance q t h2)
    (u128OfI128 (balance_diff q t h1 h2))
  have e2 := scratchBalance_modeq q t h2
  have e3 := (u128OfI128_modeq (balance_diff q t h1 h2)).trans
    (balance_diff_modeq q t h1 h2)
  have e4 := e1.trans (e2.sub e3)
  have e5 : scratchZ q t h2 - diffZ q t h1 h2 = scratchZ q t h1 := by
    have := scratch_delta q t h1 h2 hwf hlt hb
    omega
  rw [e5] at e4
  exact e4.trans (scratchBalance_modeq q t h1).symm

/-! ### Equation lemmas for the three paths of `balance_at` -/

theorem balance_at_hit (q : CoinQuery) (t : List CoinRow) (c : Cache) (h v : Nat)
    (hc : cacheGet c h = some v) : balance_at q t c h = (some v, c) := by
  simp [balance_at, hc]

theorem balance_at_scratch (q : CoinQuery) (t : List CoinRow) (c : Cache) (h : Nat)
    (hc : cacheGet c h = none) (he : c.isEmpty = true) :
    balance_at q t c h
      = (some (scratchBalance q t h), cacheInsert c h (scratchBalance q t h)) := by
  simp [balance_at, hc, he]

theorem balance_at_delta (q : CoinQuery) (t : List CoinRow) (c : Cache) (h : Nat)
    (hc : cacheGet c h = none) (he : c.isEmpty = false) :
    balance_at q t c h = (some (deltaVal q t c h),
      if deltaVal q t c h ≠ ((maxBelow c h).getD (u64Max, 0)).2 ∧
         deltaVal q t c h ≠ ((minAbove c ((h + 1) % u64Mod)).getD (u64Max, 0)).2
      then cacheInsert c h (deltaVal q t c h) else c) := by
  simp [balance_at, hc, he, deltaVal]

theorem absDiff_of_le (a b : Nat) (h : a ≤ b) : absDiff a b = b - a := if_pos h

theorem absDiff_of_ge (a b : Nat) (h : b < a) : absDiff a b = a - b :=
  if_neg (by omega)

theorem halfU64_lt_u64Max : halfU64 < u64Max := by
  unfold halfU64 u64Max; omega

theorem deltaVal_eq_scratch (q : CoinQuery) (t : List CoinRow) (c : Cache) (h : Nat)
    (hwf : wfTable t) (hh : h < halfU64) (hinv : cacheInv q t c)
    (hc : cacheGet c h = none) (hne : c ≠ []) :
    deltaVal q t c h = scratchBalance q t h := by
  have hm : (h + 1) % u64Mod = h + 1 := by
    unfold u64Mod halfU64 at *; omega
  unfold deltaVal
  rw [hm]
  cases hmin : minAbove c (h + 1) with
  | none =>
    cases hmax : maxBelow c h with
    | none =>
      exfalso
      obtain ⟨kv, hkv⟩ := List.exists_mem_of_ne_nil c hne
      have h1 := minAbove_none c (h + 1) hmin kv hkv
      have h2 := maxBelow_none c h hmax kv hkv
      have h3 : kv.1 = h := by omega
      have h4 : kv = (h, kv.2) := by
        cases kv; simp_all
      rw [h4] at hkv
      exact cacheGet_none_not_mem c h hc kv.2 hkv
    | some p =>
      obtain ⟨hpmem, hplt, _⟩ := maxBelow_spec c h p hmax
      obtain ⟨hpbd, hpval⟩ := hinv p hpmem
      simp only [Option.getD_none, Option.getD_some]
      rw [absDiff_of_le h u64Max (by have := halfU64_lt_u64Max; omega),
        absDiff_of_ge h p.1 hplt]
      rw [if_neg (by unfold u64Max halfU64 at *; omega)]
      rw [hpval]
      exact delta_from_prev q t p.1 h hwf hplt (by
        have := halfU64_lt_u64Max; omega)
  | some n =>
    obtain ⟨hnmem, hnge, _⟩ := minAbove_spec c (h + 1) n hmin
    obtain ⟨hnbd, hnval⟩ := hinv n hnmem
    cases hmax : maxBelow c h with
    | none =>
      simp only [Option.getD_none, Option.getD_some]
      rw [absDiff_of_le h n.1 (by omega),
        absDiff_of_le h u64Max (by have := halfU64_lt_u64Max; omega)]
      rw [if_pos (by unfold u64Max halfU64 at *; omega)]
      rw [hnval]
      exact delta_from_next q t h n.1 hwf (by omega) (by
        have := halfU64_lt_u64Max; omega)
    | some p =>
      obtain ⟨hpmem, hplt, _⟩ := maxBelow_spec c h p hmax
      obtain ⟨hpbd, hpval⟩ := hinv p hpmem
      simp only [Option.getD_none, Option.getD_some]
      by_cases hcl : absDiff h n.1 < absDiff h p.1
      · rw [if_pos hcl, hnval]
        exact delta_from_next q t h n.1 hwf (by omega) (by
          have := halfU64_lt_u64Max; omega)
      · rw [if_neg hcl, hpval]
        exact delta_from_prev q t p.1 h hwf hplt (by
          have := halfU64_lt_u64Max; omega)

theorem cacheInv_insert (q : CoinQuery) (t : List CoinRow) (c : Cache) (h v : Nat)
    (hinv : cacheInv q t c) (hh : h < halfU64) (hv : v = scratchBalance q t h) :
    cacheInv q t (cacheInsert c h v) := by
  intro kv hkv
  rcases mem_cacheInsert c h v kv hkv with heq | hmem
  · rw [heq]
    exact ⟨hh, hv⟩
  · exact hinv kv hmem

theorem balance_at_correct (q : CoinQuery) (t : List CoinRow) (c : Cache) (h : Nat)
    (hwf : wfTable t) (hh : h < halfU64) (hinv : cacheInv q t c) :
    (balance_at q t c h).1 = some (scratchBalance q t h) ∧
    cacheInv q t (balance_at q t c h).2 := by
  cases hc : cacheGet c h with
  | some v =>
    rw [balance_at_hit q t c h v hc]
    have hmem := cacheGet_mem c h v hc
    have hkv := hinv _ hmem
    have hv2 : v = scratchBalance q t h := by simpa using hkv.2
    exact ⟨by simp [hv2], hinv⟩
  | none =>
    cases he : c.isEmpty with
    | true =>
      rw [balance_at_scratch q t c h hc he]
      exact ⟨rfl, cacheInv_insert q t c h _ hinv hh rfl⟩
    | false =>
      rw [balance_at_delta q t c h hc he]
      have hne : c ≠ [] := by
        intro hnil
        rw [hnil] at he
        simp [List.isEmpty] at he
      have hval := deltaVal_eq_scratch q t c h hwf hh hinv hc hne
      refine ⟨by simp [hval], ?_⟩
      by_cases hins : deltaVal q t c h ≠ ((maxBelow c h).getD (u64Max, 0)).2 ∧
          deltaVal q t c h ≠ ((minAbove c ((h + 1) % u64Mod)).getD (u64Max, 0)).2
      · simpa [hins] using
          cacheInv_insert q t c h (deltaVal q t c h) hinv hh hval
      · simpa [hins] using hinv

/-! ### The claim-side neighbour search agrees with the `range` calls -/

theorem argminKey_cons (kv : Nat × Nat) (l : List (Nat × Nat)) :
    argminKey (kv :: l) = match argminKey l with
      | none => some kv
      | some best => if kv.1 < best.1 then some kv else some best := rfl

theorem argmaxKey_cons (kv : Nat × Nat) (l : List (Nat × Nat)) :
    argmaxKey (kv :: l) = match argmaxKey l with
      | none => some kv
      | some best => if best.1 < kv.1 then some kv else some best := rfl

theorem minAbove_eq_argmin (c : Cache) (b : Nat) :
    minAbove c b = argminKey (c.filter (fun kv => decide (b ≤ kv.1))) := by
  induction c with
  | nil => rfl
  | cons kv rest ih =>
    rw [List.filter_cons]
    by_cases hb : b ≤ kv.1
    · rw [if_pos (show decide (b ≤ kv.1) = true from by simpa using hb)]
      cases hrest : minAbove rest b with
      | none =>
        rw [minAbove_cons_none kv rest b hrest, if_pos hb, argminKey_cons,
          ← ih, hrest]
      | some best =>
        rw [minAbove_cons_some kv rest b best hrest, argminKey_cons, ← ih, hrest]
        by_cases hlt : kv.1 < best.1
        · rw [if_pos ⟨hb, hlt⟩]
          simp [hlt]
        · rw [if_neg (by tauto)]
          simp [hlt]
    · rw [if_neg (show ¬decide (b ≤ kv.1) = true from by simpa using hb)]
      cases hrest : minAbove rest b with
      | none =>
        rw [minAbove_cons_none kv rest b hrest, if_neg hb, ← ih, hrest]
      | some best =>
        rw [minAbove_cons_some kv rest b best hrest, if_neg (by tauto), ← ih, hrest]

theorem maxBelow_eq_argmax (c : Cache) (b : Nat) :
    maxBelow c b = argmaxKey (c.filter (fun kv => decide (kv.1 < b))) := by
  induction c with
  | nil => rfl
  | cons kv rest ih =>
    rw [List.filter_cons]
    by_cases hb : kv.1 < b
    · rw [if_pos (show decide (kv.1 < b) = true from by simpa using hb)]
      cases hrest : maxBelow rest b with
      | none =>
        rw [maxBelow_cons_none kv rest b hrest, if_pos hb, argmaxKey_cons,
          ← ih, hrest]
      | some best =>
        rw [maxBelow_cons_some kv rest b best hrest, argmaxKey_cons, ← ih, hrest]
        by_cases hlt : best.1 < kv.1
        · rw [if_pos ⟨hb, hlt⟩]
          simp [hlt]
        · rw [if_neg (by tauto)]
          simp [hlt]
    · rw [if_neg (show ¬decide (kv.1 < b) = true from by simpa using hb)]
      cases hrest : maxBelow rest b with
      | none =>
        rw [maxBelow_cons_none kv rest b hrest, if_neg hb, ← ih, hrest]
      | some best =>
        rw [maxBelow_cons_some kv rest b best hrest, if_neg (by tauto), ← ih, hrest]

theorem minAbove_eq_specNext (c : Cache) (h : Nat) (hh : h < u64Max) :
    minAbove c ((h + 1) % u64Mod) = specNextSlot c h := by
  have hm : (h + 1) % u64Mod = h + 1 := by
    unfold u64Mod u64Max at *; omega
  rw [hm, minAbove_eq_argmin]
  rfl

theorem maxBelow_eq_specPrev (c : Cache) (h : Nat) :
    maxBelow c h = specPrevSlot c h := by
  rw [maxBelow_eq_argmax]
  rfl

theorem deltaVal_lt (q : CoinQuery) (t : List CoinRow) (c : Cache) (h : Nat) :
    deltaVal q t c h < u128Mod := by
  unfold deltaVal
  dsimp only
  split
  · exact sub128_lt _ _
  · exact add128_lt _ _

/-! ### Claim theorems -/

theorem runProbes_spec (q : CoinQuery) (t : List CoinRow) (probes : List Nat)
    (hwf : wfTable t) (hps : ∀ h ∈ probes, h < halfU64) :
    ∀ c, cacheInv q t c →
      (runProbes q t probes c).1
          = probes.map (fun h => some (scratchBalance q t h)) ∧
      cacheInv q t (runProbes q t probes c).2 := by
  induction probes with
  | nil =>
    intro c hinv
    exact ⟨rfl, hinv⟩
  | cons h rest ih =>
    intro c hinv
    have hh := hps h (List.mem_cons_self _ _)
    have hco := balance_at_correct q t c h hwf hh hinv
    have hrest := ih (fun h' hh' => hps h' (List.mem_cons_of_mem _ hh'))
      (balance_at q t c h).2 hco.2
    constructor
    · show (balance_at q t c h).1
          :: (runProbes q t rest (balance_at q t c h).2).1
        = (h :: rest).map (fun h => some (scratchBalance q t h))
      rw [hco.1, hrest.1]
      rfl
    · exact hrest.2

/-- C5 (amended): with the coin table held fixed (and well-formed) and probe
heights below 2^63, the balance tracker's results are independent of probe
order: every probe returns the from-scratch (empty-cache) value of its height,
and every entry the final cache holds equals the from-scratch value at its
key.  (The original claim's stronger statement — that the cache holds an entry
at *every* probed height — fails: a value equal to a neighbour slot's balance
is deliberately not memoized; see the counterexample.) -/
theorem runProbes_values_from_scratch (q : CoinQuery) (t : List CoinRow)
    (probes : List Nat) (hwf : wfTable t) (hps : ∀ h ∈ probes, h < halfU64) :
    (runProbes q t probes []).1
        = probes.map (fun h => some (scratchBalance q t h)) ∧
    ∀ kv ∈ (runProbes q t probes []).2, kv.2 = scratchBalance q t kv.1 := by
  have hgen := runProbes_spec q t probes hwf hps [] (by intro kv hkv; simp at hkv)
  exact ⟨hgen.1, fun kv hkv => (hgen.2 kv hkv).2⟩

/-- C5, counterexample to the claim as stated: probing heights 0 then 1 on an
empty table leaves the final cache without any entry at probed height 1 (the
value computed for height 1 equals the previous neighbour slot's balance and
is not memoized), refuting "the cache map contains an entry at every probed
height". -/
theorem runProbes_missing_probed_key :
    (runProbes CoinQuery.new [] [0, 1] []).2 = [(0, 0)] ∧
    cacheGet [(0, 0)] 1 = none := by decide

/-- C5, witness: the amended theorem applied to a concrete two-coin table and
the probe order 100, 500, 300 of scenario S6. -/
theorem runProbes_values_from_scratch_witness :
    (runProbes CoinQuery.new tableW [100, 500, 300] []).1
      = [100, 500, 300].map (fun h => some (scratchBalance CoinQuery.new tableW h)) :=
  (runProbes_values_from_scratch CoinQuery.new tableW [100, 500, 300]
    (by decide) (by decide)).1

theorem scratchBalance_eq_spec (q : CoinQuery) (t : List CoinRow) (h : Nat)
    (hA : ∀ r ∈ t, spendAllOrNone r) (hh : h < u64Max) :
    scratchBalance q t h = specScratch q t h := by
  have hm : (h + 1) % u64Mod = h + 1 := succ_mod_u64 h hh
  unfold scratchBalance specScratch
  rw [queryRows_eq_filter _ _ (scratchUnspentQuery_filters_ne q h),
    queryRows_eq_filter _ _ (scratchSpentLaterQuery_filters_ne q h)]
  congr 1
  · congr 1
    apply List.filter_congr
    intro r hr
    have hAON := hA r hr
    rw [Bool.eq_iff_iff, rowMatches_scratchUnspent]
    simp only [Bool.and_eq_true, decide_eq_true_eq, Option.isNone_iff_eq_none]
    constructor
    · rintro ⟨h1, h2, h3⟩
      rcases hAON with ⟨a1, a2, a3⟩ | ⟨a1, _, _⟩
      · exact ⟨⟨⟨⟨h1, h2⟩, a1⟩, a2⟩, a3⟩
      · exact absurd h3 a1
    · rintro ⟨⟨⟨⟨h1, h2⟩, h3⟩, _⟩, _⟩
      exact ⟨h1, h2, h3⟩
  · congr 1
    apply List.filter_congr
    intro r hr
    rw [Bool.eq_iff_iff, rowMatches_scratchSpentLater]
    cases hsp : r.spend_height with
    | none => simp [hsp]
    | some s =>
      simp only [hsp, Bool.and_eq_true, decide_eq_true_eq]
      constructor
      · rintro ⟨h1, h2, h3⟩
        exact ⟨⟨h1, h2⟩, by omega⟩
      · rintro ⟨⟨h1, h2⟩, h3⟩
        exact ⟨h1, h2, by rw [hm]; omega⟩

/-- C2 (amended): for every height `h < i64::MAX` — so that both bound height
parameters `h` and `h + 1` are representable in SQLite's signed 64-bit
integers; for larger `h` the call panics inside `query_map(..).unwrap()`
while binding and returns nothing — on a table satisfying Invariant A and
with a base query whose own parameters bind, `balance_at` with an empty cache
returns the sum of matching unspent coins created at or below `h` plus the
sum of matching coins created at or below `h` and spent strictly above `h`,
and stores that value in the cache at key `h`. -/
theorem balance_at_empty_cache_scratch (q : CoinQuery) (t : List CoinRow)
    (h : Nat) (_hq : CoinQuery.bindsOk q) (hA : ∀ r ∈ t, spendAllOrNone r)
    (hh : h < i64Max) :
    balance_at q t [] h
      = (some (specScratch q t h), [(h, specScratch q t h)]) := by
  have hhu : h < u64Max := by
    unfold i64Max u64Max at *
    omega
  rw [balance_at_scratch q t [] h rfl rfl,
    scratchBalance_eq_spec q t h hA hhu]
  rfl

/-- C2, counterexample to the claim as stated: at `h = u64::MAX` no balance
is returned at all.  The first from-scratch query pushes
`create_height <= u64::MAX`; rusqlite's `ToSql` for `u64` is `i64::try_from`,
which fails for every value above `i64::MAX`, so
`stmt.query_map(&params[..], ..).unwrap()` (src/coinquery.rs:159) panics
before any row is summed — the claimed returned-and-cached sum does not exist
at this height. -/
theorem balance_at_u64max_bind_panic :
    Filter.bindFails (Filter.leF Col.create_height u64Max) = true ∧
    (scratchUnspentQuery CoinQuery.new u64Max).filters.any Filter.bindFails
      = true ∧
    i64Max < u64Max := by decide

/-- C2, witness: the amended theorem applied at height 3 on a concrete
table. -/
theorem balance_at_empty_cache_scratch_witness :
    balance_at CoinQuery.new tableW [] 3
      = (some (specScratch CoinQuery.new tableW 3),
         [(3, specScratch CoinQuery.new tableW 3)]) :=
  balance_at_empty_cache_scratch CoinQuery.new tableW 3 (by decide) (by decide)
    (by decide)

theorem specClosest_prev_only (q : CoinQuery) (t : List CoinRow) (c : Cache)
    (h : Nat) (p : Nat × Nat) (h1 : specPrevSlot c h = some p)
    (h2 : specNextSlot c h = none) :
    specClosestValue q t c h
      = some (add128 p.2 (u128OfI128 (balance_diff q t p.1 h))) := by
  unfold specClosestValue
  rw [h1, h2]

theorem specClosest_next_only (q : CoinQuery) (t : List CoinRow) (c : Cache)
    (h : Nat) (n : Nat × Nat) (h1 : specPrevSlot c h = none)
    (h2 : specNextSlot c h = some n) :
    specClosestValue q t c h
      = some (sub128 n.2 (u128OfI128 (balance_diff q t h n.1))) := by
  unfold specClosestValue
  rw [h1, h2]

theorem specClosest_both (q : CoinQuery) (t : List CoinRow) (c : Cache)
    (h : Nat) (p n : Nat × Nat) (h1 : specPrevSlot c h = some p)
    (h2 : specNextSlot c h = some n) :
    specClosestValue q t c h
      = if absDiff h n.1 < absDiff h p.1 then
          some (sub128 n.2 (u128OfI128 (balance_diff q t h n.1)))
        else
          some (add128 p.2 (u128OfI128 (balance_diff q t p.1 h))) := by
  unfold specClosestValue
  rw [h1, h2]

/-- C3: on every completing call — `h` and all cache keys below 2^63 (for
larger heights the issued `balance_diff` queries bind a height parameter
above `i64::MAX` and panic in `query_map(..).unwrap()`, returning nothing),
base query parameters binding, cache non-empty without an entry at `h` — the
result is computed from whichever cached neighbour of `h` (greatest cached
key below `h`, smallest cached key above `h`) is numerically closest, with an
absent neighbour treated as being at distance plus-infinity (the other side
wins, and with a single neighbour that neighbour is used), and ties in
distance resolved toward the lower neighbour: from the lower neighbour `prev`
the result is `C[prev] + diff(prev, h)`, from the upper neighbour `next` it
is `C[next] - diff(h, next)`.  On this domain the source's
`unwrap_or((u64::MAX, CoinValue(0)))` sentinel is always strictly farther
than any real neighbour, so the code implements exactly this rule. -/
theorem balance_at_matches_closest_rule (q : CoinQuery) (t : List CoinRow)
    (c : Cache) (h : Nat) (_hq : CoinQuery.bindsOk q)
    (hc : cacheGet c h = none) (hne : c.isEmpty = false)
    (hh : h < halfU64) (hkeys : ∀ kv ∈ c, kv.1 < halfU64) :
    (balance_at q t c h).1 = specClosestValue q t c h := by
  have hhu : h < u64Max := by
    unfold u64Max halfU64 at *
    omega
  have hm : (h + 1) % u64Mod = h + 1 := by
    unfold u64Mod halfU64 at *
    omega
  have hcne : c ≠ [] := by
    intro hnil
    rw [hnil] at hne
    simp [List.isEmpty] at hne
  rw [balance_at_delta q t c h hc hne]
  show some (deltaVal q t c h) = specClosestValue q t c h
  unfold deltaVal
  rw [hm]
  cases hmin : minAbove c (h + 1) with
  | none =>
    have hnextnone : specNextSlot c h = none := by
      rw [← minAbove_eq_specNext c h hhu, hm]
      exact hmin
    cases hmax : maxBelow c h with
    | none =>
      exfalso
      obtain ⟨kv, hkv⟩ := List.exists_mem_of_ne_nil c hcne
      have h1 := minAbove_none c (h + 1) hmin kv hkv
      have h2 := maxBelow_none c h hmax kv hkv
      have h3 : kv = (h, kv.2) := by
        cases kv
        simp_all
        omega
      rw [h3] at hkv
      exact cacheGet_none_not_mem c h hc kv.2 hkv
    | some p =>
      have hprev : specPrevSlot c h = some p := by
        rw [← maxBelow_eq_specPrev c h]
        exact hmax
      rw [specClosest_prev_only q t c h p hprev hnextnone]
      obtain ⟨hpmem, hplt, _⟩ := maxBelow_spec c h p hmax
      simp only [Option.getD_none, Option.getD_some]
      rw [absDiff_of_le h u64Max (le_of_lt hhu), absDiff_of_ge h p.1 hplt,
        if_neg (by
          unfold u64Max halfU64 at *
          omega)]
  | some n =>
    have hnext : specNextSlot c h = some n := by
      rw [← minAbove_eq_specNext c h hhu, hm]
      exact hmin
    obtain ⟨hnmem, hnge, _⟩ := minAbove_spec c (h + 1) n hmin
    have hnbd := hkeys n hnmem
    cases hmax : maxBelow c h with
    | none =>
      have hprevnone : specPrevSlot c h = none := by
        rw [← maxBelow_eq_specPrev c h]
        exact hmax
      rw [specClosest_next_only q t c h n hprevnone hnext]
      simp only [Option.getD_none, Option.getD_some]
      rw [absDiff_of_le h n.1 (by omega),
        absDiff_of_le h u64Max (le_of_lt hhu),
        if_pos (by
          unfold u64Max halfU64 at *
          omega)]
    | some p =>
      have hprev : specPrevSlot c h = some p := by
        rw [← maxBelow_eq_specPrev c h]
        exact hmax
      rw [specClosest_both q t c h p n hprev hnext]
      simp only [Option.getD_some]
      by_cases hcl : absDiff h n.1 < absDiff h p.1
      · rw [if_pos hcl, if_pos hcl]
      · rw [if_neg hcl, if_neg hcl]

/-- C3, witness: the confirmed theorem applied with cache `{10 ↦ 7}`, an
empty table and `h = 3` (a single, upper neighbour). -/
theorem balance_at_matches_closest_rule_witness :
    (balance_at CoinQuery.new [] [(10, 7)] 3).1
      = specClosestValue CoinQuery.new [] [(10, 7)] 3 :=
  balance_at_matches_closest_rule CoinQuery.new [] [(10, 7)] 3 (by decide)
    (by decide) rfl (by decide) (by decide)

/-- C6 (amended): in the neighbour-delta case, the computed value is memoized
at key `h` unless it equals either neighbour *slot's* balance — where an absent
neighbour slot counts as the sentinel balance 0 — and no other cache entry is
added, changed, or removed.  (The original claim compared only against
*existing* neighbours' cached values; the sentinel comparison also suppresses
memoization when the value happens to equal 0 with a missing slot, or 0 for a
missing next slot; see the counterexample.) -/
theorem balance_at_memoization (q : CoinQuery) (t : List CoinRow) (c : Cache)
    (h : Nat) (hc : cacheGet c h = none) (hne : c.isEmpty = false)
    (hh : h < u64Max) :
    (∀ k, k ≠ h → cacheGet (balance_at q t c h).2 k = cacheGet c k) ∧
    cacheGet (balance_at q t c h).2 h
      = (if deltaVal q t c h ≠ ((specPrevSlot c h).getD (u64Max, 0)).2 ∧
            deltaVal q t c h ≠ ((specNextSlot c h).getD (u64Max, 0)).2
         then some (deltaVal q t c h) else none) := by
  rw [balance_at_delta q t c h hc hne]
  rw [← minAbove_eq_specNext c h hh, ← maxBelow_eq_specPrev c h]
  constructor
  · intro k hk
    by_cases hins : deltaVal q t c h ≠ ((maxBelow c h).getD (u64Max, 0)).2 ∧
        deltaVal q t c h ≠ ((minAbove c ((h + 1) % u64Mod)).getD (u64Max, 0)).2
    · show cacheGet (if _ then _ else _) k = _
      rw [if_pos hins]
      exact cacheGet_cacheInsert_ne c h _ k hk
    · show cacheGet (if _ then _ else _) k = _
      rw [if_neg hins]
  · by_cases hins : deltaVal q t c h ≠ ((maxBelow c h).getD (u64Max, 0)).2 ∧
        deltaVal q t c h ≠ ((minAbove c ((h + 1) % u64Mod)).getD (u64Max, 0)).2
    · show cacheGet (if _ then _ else _) h = _
      rw [if_pos hins, if_pos hins]
      exact cacheGet_cacheInsert_self c h _
    · show cacheGet (if _ then _ else _) h = _
      rw [if_neg hins, if_neg hins]
      exact hc

/-- C6, counterexample to the claim as stated: cache `{10 ↦ 7}`, one matching
unspent coin of value 7 created at height 4, probe `h = 3`.  The computed
value is 0, which differs from the only existing neighbour's cached value 7,
so the claim requires it to be memoized at 3 — but the code also compares
against the absent-previous sentinel balance 0 and skips the insert. -/
theorem balance_at_memoization_counterexample :
    (balance_at CoinQuery.new [rowUnspent4] [(10, 7)] 3).1 = some 0 ∧
    cacheGet (balance_at CoinQuery.new [rowUnspent4] [(10, 7)] 3).2 3 = none ∧
    specPrevSlot [(10, 7)] 3 = none ∧
    specNextSlot [(10, 7)] 3 = some (10, 7) ∧
    (0 : Nat) ≠ 7 := by decide

/-- C6, witness: the amended theorem applied with cache `{10 ↦ 7}`, an empty
table and `h = 3` (the frame part evaluated at key 10). -/
theorem balance_at_memoization_witness :
    cacheGet (balance_at CoinQuery.new [] [(10, 7)] 3).2 10
      = cacheGet [(10, 7)] 10 :=
  (balance_at_memoization CoinQuery.new [] [(10, 7)] 3 (by decide) rfl
    (by decide)).1 10 (by decide)

/-- C7 (amended): every balance `balance_at` returns is a non-negative value
below 2^128 (given a cache whose balances are), and the interval delta is the
exact signed integer `diffZ`; but when applying the delta to a neighbour
slot's balance overflows or underflows the `u128` range the caller observes
*wrapping* (mod 2^128) semantics — the `as u128` cast and the `u128`
addition/subtraction wrap — not saturating semantics (see the
counterexample). -/
theorem balance_at_wrapping_arithmetic (q : CoinQuery) (t : List CoinRow)
    (c : Cache) (h : Nat) (hcache : ∀ kv ∈ c, kv.2 < u128Mod) :
    (∀ v, (balance_at q t c h).1 = some v → v < u128Mod) ∧
    (cacheGet c h = none → c.isEmpty = false → h < u64Max →
      (balance_at q t c h).1 = some (deltaVal q t c h) ∧
      (absDiff h (((specNextSlot c h).getD (u64Max, 0)).1)
          < absDiff h (((specPrevSlot c h).getD (u64Max, 0)).1) →
        ((deltaVal q t c h : Nat) : Int)
          ≡ ((((specNextSlot c h).getD (u64Max, 0)).2 : Nat) : Int)
            - diffZ q t h (((specNextSlot c h).getD (u64Max, 0)).1)
          [ZMOD u128ModZ]) ∧
      (¬ absDiff h (((specNextSlot c h).getD (u64Max, 0)).1)
          < absDiff h (((specPrevSlot c h).getD (u64Max, 0)).1) →
        ((deltaVal q t c h : Nat) : Int)
          ≡ ((((specPrevSlot c h).getD (u64Max, 0)).2 : Nat) : Int)
            + diffZ q t (((specPrevSlot c h).getD (u64Max, 0)).1) h
          [ZMOD u128ModZ])) := by
  constructor
  · intro v hv
    cases hc : cacheGet c h with
    | some w =>
      rw [balance_at_hit q t c h w hc] at hv
      have hw : w = v := by simpa using hv
      rw [← hw]
      exact hcache _ (cacheGet_mem c h w hc)
    | none =>
      cases he : c.isEmpty with
      | true =>
        rw [balance_at_scratch q t c h hc he] at hv
        have : scratchBalance q t h = v := by simpa using hv
        rw [← this]
        exact scratchBalance_lt q t h
      | false =>
        rw [balance_at_delta q t c h hc he] at hv
        have : deltaVal q t c h = v := by simpa using hv
        rw [← this]
        exact deltaVal_lt q t c h
  · intro hc hne hh
    refine ⟨by rw [balance_at_delta q t c h hc hne], ?_, ?_⟩
    · intro hbr
      rw [← minAbove_eq_specNext c h hh] at hbr ⊢
      rw [← maxBelow_eq_specPrev c h] at hbr
      unfold deltaVal
      dsimp only
      rw [if_pos hbr]
      exact (sub128_modeq _ _).trans ((Int.ModEq.refl _).sub
        ((u128OfI128_modeq _).trans (balance_diff_modeq q t h _)))
    · intro hbr
      rw [← minAbove_eq_specNext c h hh] at hbr
      rw [← maxBelow_eq_specPrev c h] at hbr ⊢
      unfold deltaVal
      dsimp only
      rw [if_neg hbr]
      exact (add128_modeq _ _).trans ((Int.ModEq.refl _).add
        ((u128OfI128_modeq _).trans (balance_diff_modeq q t _ h)))

/-- C7, counterexample to the claim as stated: cache `{10 ↦ 0}`, one matching
coin of value 1 created at height 5, probe `h = 3`.  The delta applied to the
next neighbour's balance 0 underflows; saturating semantics would return 0,
but the code returns the wrapped value 2^128 - 1. -/
theorem balance_at_saturation_counterexample :
    (balance_at CoinQuery.new [rowUnspent5] [(10, 0)] 3).1 = some (u128Mod - 1) ∧
    satApply 0 (- diffZ CoinQuery.new [rowUnspent5] 3 10) = 0 ∧
    u128Mod - 1 ≠ 0 := by decide

/-- C7, witness: the amended theorem applied at the underflow input (the
next-neighbour congruence extracted). -/
theorem balance_at_wrapping_arithmetic_witness :
    ((deltaVal CoinQuery.new [rowUnspent5] [(10, 0)] 3 : Nat) : Int)
      ≡ ((((specNextSlot [(10, 0)] 3).getD (u64Max, 0)).2 : Nat) : Int)
        - diffZ CoinQuery.new [rowUnspent5] 3
            (((specNextSlot [(10, 0)] 3).getD (u64Max, 0)).1)
      [ZMOD u128ModZ] :=
  (((balance_at_wrapping_arithmetic CoinQuery.new [rowUnspent5] [(10, 0)] 3
    (by decide)).2 (by decide) rfl (by decide)).2).1 (by decide)

/-- C9: `balance_at` never returns `None`: on every height, cache and table
state the model returns `some` (the `Option` in the signature carries no
absence information). -/
theorem balance_at_isSome (q : CoinQuery) (t : List CoinRow) (c : Cache)
    (h : Nat) : ((balance_at q t c h).1).isSome = true := by
  cases hc : cacheGet c h with
  | some v => rw [balance_at_hit q t c h v hc]; rfl
  | none =>
    cases he : c.isEmpty with
    | true => rw [balance_at_scratch q t c h hc he]; rfl
    | false => rw [balance_at_delta q t c h hc he]; rfl

/-- C4: on a fresh open against an empty store, `max_height()` is 0 and a
fresh balance tracker's `balance_at(0)` is 0 — but an unconstrained
`query_coins().iter()` does not yield an empty sequence: with no filters the
prepared text is `select * from coins where ` (nothing follows the WHERE
keyword), SQLite rejects it, and the `prepare_cached(..).unwrap()` panics;
the model returns `none` for this failure. -/
theorem fresh_open_empty_store :
    max_height [] = 0 ∧
    iterSqlText CoinQuery.new = "select * from coins where " ∧
    (∀ t : List CoinRow, CoinQuery.iter CoinQuery.new t = none) ∧
    balance_at CoinQuery.new [] [] 0 = (some 0, [(0, 0)]) := by
  refine ⟨rfl, by decide, fun t => rfl, by decide⟩

/-- C1 (amended): for every transaction in a block, after its processing step:
if its kind is Swap, the coin id at index 0; if LiqDeposit, indices 0 and 1;
if LiqWithdraw, every index below `((len(outputs) mod 256) + 1) mod 256` — the
`u8`-wrapped loop bound, equal to `len(outputs) + 1` exactly when
`len(outputs) ≤ 254` — is removed from `new_coins`, the pinned snapshot is
queried for it, and it is re-inserted with the snapshot's payload when the
snapshot returns a coin and left absent otherwise (so the final binding of
each such id equals the snapshot's answer, and the id appears in the list of
snapshot lookups).  (The original claim's LiqWithdraw range `0..=len(outputs)`
fails for 255 declared outputs; see the counterexample.) -/
theorem processTx_melswap_rules (snap : CoinID → Option CoinData)
    (st : CoinMap × List CoinID) (tx : Transaction) :
    (tx.kind = TxKind.Swap →
      lookupMap (processTx snap st tx).1 (tx.hash_nosigs, 0)
          = snap (tx.hash_nosigs, 0) ∧
      (tx.hash_nosigs, 0) ∈ (processTx snap st tx).2) ∧
    (tx.kind = TxKind.LiqDeposit → ∀ i, i < 2 →
      lookupMap (processTx snap st tx).1 (tx.hash_nosigs, i)
          = snap (tx.hash_nosigs, i) ∧
      (tx.hash_nosigs, i) ∈ (processTx snap st tx).2) ∧
    (tx.kind = TxKind.LiqWithdraw →
      ∀ i, i < (tx.outputs.length % 256 + 1) % 256 →
      lookupMap (processTx snap st tx).1 (tx.hash_nosigs, i)
          = snap (tx.hash_nosigs, i) ∧
      (tx.hash_nosigs, i) ∈ (processTx snap st tx).2) := by
  refine ⟨fun hk => ?_, fun hk => ?_, fun hk => ?_⟩
  · have hp : processTx snap st tx
        = transmuteMany snap (insertOuts tx.hash_nosigs st.1 0 tx.outputs, st.2)
            [(tx.hash_nosigs, 0)] := by
      simp [processTx, hk]
    rw [hp, lookup_transmuteMany, queried_transmuteMany]
    constructor
    · simp
    · simp
  · intro i hi
    have hp : processTx snap st tx
        = transmuteMany snap (insertOuts tx.hash_nosigs st.1 0 tx.outputs, st.2)
            ((List.range 2).map (fun j => (tx.hash_nosigs, j))) := by
      simp [processTx, hk]
    have hmem : (tx.hash_nosigs, i)
        ∈ (List.range 2).map (fun j => (tx.hash_nosigs, j)) :=
      List.mem_map.mpr ⟨i, List.mem_range.mpr hi, rfl⟩
    rw [hp, lookup_transmuteMany, queried_transmuteMany]
    exact ⟨if_pos hmem, List.mem_append_right _ hmem⟩
  · intro i hi
    have hp : processTx snap st tx
        = transmuteMany snap (insertOuts tx.hash_nosigs st.1 0 tx.outputs, st.2)
            (liqWithdrawIds tx) := by
      simp [processTx, hk]
    have hmem : (tx.hash_nosigs, i) ∈ liqWithdrawIds tx :=
      List.mem_map.mpr ⟨i, List.mem_range.mpr hi, rfl⟩
    rw [hp, lookup_transmuteMany, queried_transmuteMany]
    exact ⟨if_pos hmem, List.mem_append_right _ hmem⟩

/-- C1, counterexample to the claim as stated: a LiqWithdraw transaction with
exactly 255 declared outputs whose first output the snapshot reports with a
different payload.  The claim requires indices `0..=255` to be transmuted —
in particular the snapshot to be queried and index 0 to be re-bound to the
snapshot payload `⟨2, 2, 2, 0⟩` — but the wrapped loop bound
`(255 as u8) + 1 = 0` makes the index range empty: no snapshot lookup is
recorded and index 0 keeps its declared output `⟨1, 1, 1, 0⟩`. -/
theorem processTx_liqwithdraw255_counterexample :
    txLW255.kind = TxKind.LiqWithdraw ∧
    txLW255.outputs.length = 255 ∧
    snapLW (7, 0) = some ⟨2, 2, 2, 0⟩ ∧
    (processTx snapLW (([] : CoinMap), ([] : List CoinID)) txLW255).2 = [] ∧
    lookupMap (processTx snapLW (([] : CoinMap), ([] : List CoinID)) txLW255).1
        (7, 0) = some ⟨1, 1, 1, 0⟩ := by
  have hk : txLW255.kind = TxKind.LiqWithdraw := rfl
  have hout : txLW255.outputs = List.replicate 255 ⟨1, 1, 1, 0⟩ := rfl
  have hhash : txLW255.hash_nosigs = 7 := rfl
  have hlen : txLW255.outputs.length = 255 := by
    rw [hout]
    exact List.length_replicate _ _
  have hids : liqWithdrawIds txLW255 = [] := by
    unfold liqWithdrawIds
    rw [hlen]
    rfl
  have hp : processTx snapLW (([] : CoinMap), ([] : List CoinID)) txLW255
      = (insertOuts 7 ([] : CoinMap) 0 txLW255.outputs, ([] : List CoinID)) := by
    simp [processTx, hk, hids, transmuteMany, hhash]
  refine ⟨hk, hlen, rfl, by rw [hp], ?_⟩
  rw [hp]
  have hat := lookup_insertOuts_at 7 txLW255.outputs [] 0 0
    (by rw [hlen]; omega) (by rw [hlen]; omega)
  have hget : txLW255.outputs.get? 0 = some ⟨1, 1, 1, 0⟩ := by
    rw [hout]
    rfl
  rw [hget] at hat
  simpa using hat

/-- C1, witness: the amended theorem's Swap conjunct applied to a concrete
Swap transaction whose snapshot transmutes the first output. -/
theorem processTx_melswap_rules_witness :
    lookupMap (processTx snapSwap (([] : CoinMap), ([] : List CoinID)) txSwap1).1
        (txSwap1.hash_nosigs, 0) = snapSwap (txSwap1.hash_nosigs, 0) ∧
    (txSwap1.hash_nosigs, 0)
      ∈ (processTx snapSwap (([] : CoinMap), ([] : List CoinID)) txSwap1).2 :=
  (processTx_melswap_rules snapSwap ([], []) txSwap1).1 rfl

/-- C10: for a LiqWithdraw transaction the loop's coin ids are exactly the
indices below `((len(outputs) mod 256) + 1) mod 256` — the `u8` cast of the
length incremented with wrapping `u8` arithmetic; in particular with exactly
255 declared outputs the range is empty: no snapshot lookup is performed for
the transaction, the result does not depend on the snapshot at all, and every
declared output remains bound, untransmuted, in `new_coins`. -/
theorem processTx_liqwithdraw_wrap (snap snap' : CoinID → Option CoinData)
    (st : CoinMap × List CoinID) (tx : Transaction)
    (hk : tx.kind = TxKind.LiqWithdraw) :
    (processTx snap st tx).2
        = st.2 ++ (List.range ((tx.outputs.length % 256 + 1) % 256)).map
            (fun i => (tx.hash_nosigs, i)) ∧
    (tx.outputs.length = 255 →
      (processTx snap st tx).2 = st.2 ∧
      processTx snap st tx = processTx snap' st tx ∧
      (∀ i, i < 255 →
        lookupMap (processTx snap st tx).1 (tx.hash_nosigs, i)
          = tx.outputs.get? i)) := by
  have hp : ∀ sn : CoinID → Option CoinData, processTx sn st tx
      = transmuteMany sn (insertOuts tx.hash_nosigs st.1 0 tx.outputs, st.2)
          (liqWithdrawIds tx) := by
    intro sn
    simp [processTx, hk]
  constructor
  · rw [hp snap, queried_transmuteMany]
    rfl
  · intro hlen
    have hids : liqWithdrawIds tx = [] := by
      simp [liqWithdrawIds, hlen]
    have hval : ∀ sn : CoinID → Option CoinData, processTx sn st tx
        = (insertOuts tx.hash_nosigs st.1 0 tx.outputs, st.2) := by
      intro sn
      rw [hp sn, hids]
      rfl
    refine ⟨by rw [hval snap], by rw [hval snap, hval snap'], ?_⟩
    intro i hi
    rw [hval snap]
    have hat := lookup_insertOuts_at tx.hash_nosigs tx.outputs st.1 0 i
      (by omega) (by omega)
    have hmod : (0 + i) % 256 = i := by omega
    rw [hmod] at hat
    exact hat

/-- C10, witness: applied to the concrete 255-output LiqWithdraw transaction:
the instrumented snapshot-lookup list stays empty. -/
theorem processTx_liqwithdraw_wrap_witness :
    (processTx snapLW (([] : CoinMap), ([] : List CoinID)) txLW255).2 = [] := by
  have hlen : txLW255.outputs.length = 255 := by
    rw [show txLW255.outputs = List.replicate 255 ⟨1, 1, 1, 0⟩ from rfl]
    exact List.length_replicate _ _
  have h := (processTx_liqwithdraw_wrap snapLW (fun _ => none)
    (([] : CoinMap), ([] : List CoinID)) txLW255 rfl).2 hlen
  simpa using h.1

/-- C8: the coin insert writes all three spend columns NULL and the only
update writes all three at once, so after any sequence of commit-time
operations on a table satisfying Invariant A, every row still has its three
spend columns all NULL or all non-NULL. -/
theorem applyOps_spend_all_or_none (ops : List StoreOp) (t : List CoinRow)
    (h : ∀ r ∈ t, spendAllOrNone r) :
    ∀ r ∈ ops.foldl applyOp t, spendAllOrNone r := by
  induction ops generalizing t with
  | nil => simpa using h
  | cons op rest ih =>
    have hstep : (op :: rest).foldl applyOp t = rest.foldl applyOp (applyOp t op) :=
      rfl
    rw [hstep]
    apply ih
    intro r hr
    cases op with
    | insertCoin ctx cidx ch value denom covhash adata =>
      simp only [applyOp] at hr
      split at hr
      · exact h r hr
      · rcases List.mem_append.mp hr with hmem | hmem
        · exact h r hmem
        · have : r = ⟨ctx, cidx, ch, value, denom, covhash, adata,
              none, none, none⟩ := by simpa using hmem
          rw [this]
          left
          exact ⟨rfl, rfl, rfl⟩
    | updateSpend stx sidx sh ctx cidx =>
      simp only [applyOp] at hr
      rcases List.mem_map.mp hr with ⟨r0, hr0, heq⟩
      by_cases hcond : r0.create_txhash = ctx ∧ r0.create_index = cidx
      · rw [if_pos hcond] at heq
        rw [← heq]
        right
        exact ⟨by simp, by simp, by simp⟩
      · rw [if_neg hcond] at heq
        rw [← heq]
        exact h r0 hr0

/-- C8, witness: inserting a coin and then spending it through the update
leaves a row with all three spend columns populated, satisfying the
invariant. -/
theorem applyOps_spend_all_or_none_witness :
    spendAllOrNone ⟨1, 0, 1, 100, 0, 0, 0, some 2, some 0, some 5⟩ :=
  applyOps_spend_all_or_none
    [StoreOp.insertCoin 1 0 1 100 0 0 0, StoreOp.updateSpend 2 0 5 1 0] []
    (by simp) _ (by decide)
